import Mathlib

/-!
# 0 VU gain adjustment: envelope follower and gain solver

A shallow embedding of `src/C++/0VUGainadjustment.cpp`.

* `double` is embedded as an arbitrary linearly ordered field `K` (exact arithmetic: the
  decimal literals `0.1`, `10.0`, `0.3`, `1e-4` are the rationals they denote).  Every
  definition is executable at `K = ℚ`; the theorems hold in particular at `K = ℝ`.
  Rounding is not part of the embedding.  It agrees with the program up to rounding where
  `releaseTime * rate > 0` and the tolerance is far above the spacing of the doubles in
  `[0.1, 10]`; the statements about solved gains are therefore made for tolerances no finer
  than the default `1e-4`, and nothing is stated about exact equality of computed widths.
* The `<cmath>` functions `std::exp` and `std::pow` are not part of the repository; the
  definitions take them as the parameters `expf` and `powf`.
* `Eigen::VectorXd` is a list of coefficients, `Eigen::MatrixXd` the list of its columns
  (Eigen stores column-major; `data.col(ch)` is the `ch`-th list).
* Element access outside a vector and a reduction over a matrix without coefficients are
  undefined behaviour in C++ (an Eigen assertion); the embedding returns them as a `Fault`.
* The `while` loop of `adjustGain` is run with a fuel bound; running out of fuel is the
  separate fault `outOfFuel`, so that "the function returns" is a statement about enough fuel.
* `short` is an integer in `[-32768, 32767]`; `static_cast<short>` of a `double` truncates
  toward zero and is undefined (`none`) outside that range.  File access through
  `SndfileHandle` is outside the embedding: `readWavFile` and `saveWavFile` are the
  conversions between the interleaved sample vector and the matrix.
* `std::string` is a list of characters.
-/

namespace VUGain

/-- Ways in which a run does not produce a value. -/
inductive Fault where
  /-- Read or write of a vector element at an index that is not below its size. -/
  | outOfRange
  /-- Call of `maxCoeff` on a matrix with no coefficient. -/
  | emptyMatrix
  /-- The fuel given to the `while` loop was used up before its condition became false. -/
  | outOfFuel
  deriving DecidableEq

/-- Coefficients of an `Eigen::VectorXd`. -/
abbrev VectorXd (K : Type) := List K

/-- Columns of an `Eigen::MatrixXd` (one list per channel, one entry per frame). -/
abbrev MatrixXd (K : Type) := List (List K)

/-- The matrix has `rows` frames and `cols` channels. -/
def HasShape {K : Type} (m : MatrixXd K) (rows cols : Nat) : Prop :=
  m.length = cols ∧ ∀ c ∈ m, c.length = rows

instance {K : Type} (m : MatrixXd K) (rows cols : Nat) : Decidable (HasShape m rows cols) := by
  unfold HasShape; infer_instance

section Defs

variable {K : Type} [LinearOrderedField K]

/-- Constant `VU_REF_DB = -18.0`. -/
def VU_REF_DB : K := -18

/-- Constant `REF_LEVEL = std::pow(10.0, VU_REF_DB / 20.0)`. -/
def REF_LEVEL (powf : K → K → K) : K := powf 10 (VU_REF_DB / 20)

/-- The body of the `for` loop of `vuMeter`, run over the samples `signal[i..]`:
`prev` is `vuLevel[i - 1]`, the result is `vuLevel[i..]`. -/
def vuRelease (alpha : K) : K → List K → List K
  | _, [] => []
  | prev, x :: rest =>
    let v := max (alpha * prev) |x|
    v :: vuRelease alpha v rest

/-- Function `vuMeter(signal, rate, releaseTime)`.  The statement `vuLevel[0] = std::abs(signal[0])`
is executed before the loop whatever the size, so a vector of size 0 is accessed out of range.
At `releaseTime * rate = 0` the program divides by zero (an IEEE infinity), which a field does
not have: there `alpha` of the embedding is not the factor the program computes. -/
def vuMeter (expf : K → K) (signal : VectorXd K) (rate : Int) (releaseTime : K) :
    Except Fault (VectorXd K) :=
  let alpha := expf (-1 / (releaseTime * (rate : K)))
  match signal with
  | [] => .error .outOfRange
  | x :: rest => .ok (|x| :: vuRelease alpha |x| rest)

/-- Function `calculateVuLevels(normalizedData, rate)`: `vuMeter` with the default release
time `0.3` on every column, in column order. -/
def calculateVuLevels (expf : K → K) : MatrixXd K → Int → Except Fault (MatrixXd K)
  | [], _ => .ok []
  | col :: cols, rate =>
    match vuMeter expf col rate (3 / 10) with
    | .error e => .error e
    | .ok v =>
      match calculateVuLevels expf cols rate with
      | .error e => .error e
      | .ok vs => .ok (v :: vs)

/-- Expression `normalizedData * mid`: every coefficient times the scalar. -/
def scaleBy (m : MatrixXd K) (g : K) : MatrixXd K :=
  m.map (fun col => col.map (fun x => x * g))

/-- The `maxCoeff()` of Eigen: the largest coefficient; the matrix must have one. -/
def maxCoeff (m : MatrixXd K) : Except Fault K :=
  match m.flatten with
  | [] => .error .emptyMatrix
  | x :: xs => .ok (xs.foldl max x)

/-- The quantity the solver compares with the reference level, lines 61-62 of the source:
`calculateVuLevels(normalizedData * g, rate).maxCoeff()`. -/
def maxVu (expf : K → K) (data : MatrixXd K) (rate : Int) (g : K) : Except Fault K :=
  match calculateVuLevels expf (scaleBy data g) rate with
  | .error e => .error e
  | .ok vuLevels => maxCoeff vuLevels

/-- The two loop variables of `adjustGain`. -/
structure Bracket (K : Type) where
  low : K
  high : K
  deriving DecidableEq

/-- One execution of the body of the `while` loop of `adjustGain`. -/
def adjustGainStep (expf : K → K) (data : MatrixXd K) (rate : Int) (refLevel : K)
    (b : Bracket K) : Except Fault (Bracket K) :=
  let mid := (b.low + b.high) / 2
  match maxVu expf data rate mid with
  | .error e => .error e
  | .ok v => if v < refLevel then .ok ⟨mid, b.high⟩ else .ok ⟨b.low, mid⟩

/-- The `while (high - low > tol)` loop of `adjustGain` started in bracket `b`.  The second
component of the result counts the executions of the loop body (`iters` so far). -/
def adjustGainLoop (expf : K → K) (data : MatrixXd K) (rate : Int) (refLevel tol : K) :
    Nat → Bracket K → Nat → Except Fault (Bracket K × Nat)
  | fuel, b, iters =>
    if b.high - b.low > tol then
      match fuel with
      | 0 => .error .outOfFuel
      | fuel + 1 =>
        match adjustGainStep expf data rate refLevel b with
        | .error e => .error e
        | .ok b1 => adjustGainLoop expf data rate refLevel tol fuel b1 (iters + 1)
    else .ok (b, iters)

/-- Function `adjustGain(normalizedData, rate, refLevel, tol)`, with the loop given `fuel`. -/
def adjustGain (expf : K → K) (fuel : Nat) (data : MatrixXd K) (rate : Int)
    (refLevel tol : K) : Except Fault K :=
  match adjustGainLoop expf data rate refLevel tol fuel ⟨1 / 10, 10⟩ 0 with
  | .error e => .error e
  | .ok (b, _) => .ok ((b.low + b.high) / 2)

/-- The largest absolute sample of a buffer, `data.cwiseAbs().maxCoeff()`. -/
def peakAbs (data : MatrixXd K) : Except Fault K :=
  maxCoeff (data.map (fun col => col.map (fun x => |x|)))

/-- The levels `vuMeter` writes for a signal, as a total function: the empty list for the
empty signal, on which `vuMeter` itself faults.  Used to state facts about the levels. -/
def vuEnvelope (alpha : K) : List K → List K
  | [] => []
  | x :: rest => |x| :: vuRelease alpha |x| rest

/-- The decay factor `alpha` that `vuMeter` computes from its arguments. -/
def decay (expf : K → K) (rate : Int) (releaseTime : K) : K :=
  expf (-1 / (releaseTime * (rate : K)))

/-- The number `n` of halvings after which a bracket of width `w` is no wider than `tol`:
the least `n` with `w / 2 ^ n ≤ tol`. -/
def IsIterCount (w tol : K) (n : Nat) : Prop :=
  w / 2 ^ n ≤ tol ∧ ∀ m, m < n → tol < w / 2 ^ m

instance (w tol : K) (n : Nat) : Decidable (IsIterCount w tol n) := by
  unfold IsIterCount; infer_instance

end Defs

/-- A rational stand-in for `std::exp`, used to run the definitions on `ℚ`.  Like `exp` it takes
the numbers `t ≤ 0` into `(0, 1]` and the numbers `t > 0` above 1. -/
def expQ (t : ℚ) : ℚ := if t ≤ 0 then 1 / (1 - t) else 1 + t

section Defs2

variable {K : Type} [LinearOrderedField K]

/-- Constant `std::numeric_limits<short>::max()`. -/
def SHORT_MAX : Int := 32767

/-- Constant `std::numeric_limits<short>::min()`. -/
def SHORT_MIN : Int := -32768

/-- Line 29 of `readWavFile`: the value stored for the 16-bit sample `s`,
`s / static_cast<double>(std::numeric_limits<short>::max())`. -/
def readSample (s : Int) : K := (s : K) / ((SHORT_MAX : Int) : K)

/-- The matrix that `readWavFile` fills from the interleaved samples `buffer` of a file with
`frames` frames and `channels` channels: `data(i, j) = buffer[i * channels + j] / 32767`.
Opening and reading the file is outside the embedding. -/
def readWavFile (buffer : List Int) (frames channels : Nat) : MatrixXd K :=
  (List.range channels).map (fun j =>
    (List.range frames).map (fun i => readSample (buffer.getD (i * channels + j) 0)))

/-- Conversion `static_cast<short>(y)` of a `double`: the fractional part is discarded
(truncation toward zero); the behaviour is undefined, here `none`, when the truncated value
is not a `short`. -/
def toShort [FloorRing K] (y : K) : Option Int :=
  let t : Int := if 0 ≤ y then ⌊y⌋ else ⌈y⌉
  if SHORT_MIN ≤ t ∧ t ≤ SHORT_MAX then some t else none

/-- Line 79 of `saveWavFile`: the 16-bit sample written for the value `x`,
`static_cast<short>(x * std::numeric_limits<short>::max())`. -/
def saveSample [FloorRing K] (x : K) : Option Int :=
  toShort (x * ((SHORT_MAX : Int) : K))

/-- All the values of a list of conversions, if every one of them is defined. -/
def collect {α : Type} : List (Option α) → Option (List α)
  | [] => some []
  | none :: _ => none
  | some a :: rest =>
    match collect rest with
    | none => none
    | some as => some (a :: as)

/-- The interleaved sample vector that `saveWavFile` hands to the file writer:
`buffer[i * channels + j] = static_cast<short>(data(i, j) * 32767)`. -/
def saveWavFile [FloorRing K] (data : MatrixXd K) (frames channels : Nat) : Option (List Int) :=
  collect ((List.range frames).flatMap (fun i =>
    (List.range channels).map (fun j => saveSample ((data.getD j []).getD i 0))))

/-- Lines 99-103 of `main`: the gain solved with the default reference level and tolerance,
and the buffer `data * gainAdjustment`. -/
def mainAdjust (expf : K → K) (powf : K → K → K) (fuel : Nat) (data : MatrixXd K)
    (sampleRate : Int) : Except Fault (K × MatrixXd K) :=
  match adjustGain expf fuel data sampleRate (REF_LEVEL powf) (1 / 10000) with
  | .error e => .error e
  | .ok gainAdjustment => .ok (gainAdjustment, scaleBy data gainAdjustment)

end Defs2

/-- Member `std::string::find_last_of(c)` on a string given as its characters: the index of
the last occurrence of `c`, or `none` for `npos`. -/
def find_last_of : List Char → Char → Option Nat
  | [], _ => none
  | x :: rest, c =>
    match find_last_of rest c with
    | some k => some (k + 1)
    | none => if x = c then some 0 else none

/-- Member `std::string::substr(0, count)`: the first `count` characters, the whole string
when `count` is `npos` or exceeds the size. -/
def substr (s : List Char) (count : Option Nat) : List Char :=
  match count with
  | none => s
  | some k => s.take k

/-- Line 107 of `main`:
`filePath.substr(0, filePath.find_last_of('.')) + "_VUoutput.wav"`. -/
def outputFilePath (filePath : List Char) : List Char :=
  substr filePath (find_last_of filePath '.') ++ "_VUoutput.wav".toList


/-! ## Auxiliary lemmas -/

section Lemmas

variable {K : Type} [LinearOrderedField K]

/-! ### The release loop -/

theorem vuRelease_length (alpha : K) :
    ∀ (xs : List K) (prev : K), (vuRelease alpha prev xs).length = xs.length
  | [], _ => rfl
  | _ :: rest, _ => by simp [vuRelease, vuRelease_length alpha rest]

theorem vuRelease_getElem (alpha : K) :
    ∀ (xs : List K) (prev : K) (i : Nat), i < xs.length →
      (vuRelease alpha prev xs)[i]? =
        some (max (alpha * (prev :: vuRelease alpha prev xs).getD i 0) |xs.getD i 0|)
  | [], _, _, h => by simp at h
  | x :: rest, prev, 0, _ => by simp [vuRelease]
  | x :: rest, prev, i + 1, h => by
    have hi : i < rest.length := by simpa using h
    have ih := vuRelease_getElem alpha rest (max (alpha * prev) |x|) i hi
    simpa [vuRelease] using ih

theorem vuRelease_scale (alpha g : K) (hg : 0 ≤ g) :
    ∀ (xs : List K) (prev : K),
      vuRelease alpha (prev * g) (xs.map (fun x => x * g)) =
        (vuRelease alpha prev xs).map (fun x => x * g)
  | [], _ => rfl
  | x :: rest, prev => by
    have hstep : max (alpha * (prev * g)) |x * g| = max (alpha * prev) |x| * g := by
      rw [abs_mul, abs_of_nonneg hg, max_mul_of_nonneg _ _ hg, mul_assoc]
    simp only [List.map_cons, vuRelease, hstep]
    rw [vuRelease_scale alpha g hg rest]

theorem vuRelease_nonneg (alpha : K) :
    ∀ (xs : List K) (prev : K), ∀ v ∈ vuRelease alpha prev xs, 0 ≤ v
  | [], _, v, h => by simp [vuRelease] at h
  | x :: rest, prev, v, h => by
    simp only [vuRelease, List.mem_cons] at h
    rcases h with h | h
    · rw [h]; exact le_max_of_le_right (abs_nonneg x)
    · exact vuRelease_nonneg alpha rest _ v h

/-- With a decay factor in `[0, 1]` the release loop never exceeds a bound that holds for the
previous level and for every remaining sample. -/
theorem vuRelease_le (alpha : K) (h0 : 0 ≤ alpha) (h1 : alpha ≤ 1) (B : K) :
    ∀ (xs : List K) (prev : K), 0 ≤ prev → prev ≤ B → (∀ x ∈ xs, |x| ≤ B) →
      ∀ v ∈ vuRelease alpha prev xs, v ≤ B
  | [], _, _, _, _, v, h => by simp [vuRelease] at h
  | x :: rest, prev, hp, hpB, hx, v, h => by
    have hxB : |x| ≤ B := hx x (List.mem_cons_self _ _)
    have hm : max (alpha * prev) |x| ≤ B := by
      apply max_le _ hxB
      calc alpha * prev ≤ 1 * prev := mul_le_mul_of_nonneg_right h1 hp
        _ = prev := one_mul _
        _ ≤ B := hpB
    simp only [vuRelease, List.mem_cons] at h
    rcases h with h | h
    · rw [h]; exact hm
    · exact vuRelease_le alpha h0 h1 B rest _ (le_max_of_le_right (abs_nonneg x)) hm
        (fun y hy => hx y (List.mem_cons_of_mem _ hy)) v h

/-- Instantaneous attack: every remaining sample is covered by some level of the loop. -/
theorem vuRelease_cover (alpha : K) :
    ∀ (xs : List K) (prev : K), ∀ x ∈ xs, ∃ v ∈ vuRelease alpha prev xs, |x| ≤ v
  | [], _, x, h => by simp at h
  | y :: rest, prev, x, h => by
    rcases List.mem_cons.1 h with h | h
    · exact ⟨max (alpha * prev) |y|, by simp [vuRelease], by rw [h]; exact le_max_right _ _⟩
    · obtain ⟨v, hv, hxv⟩ := vuRelease_cover alpha rest (max (alpha * prev) |y|) x h
      exact ⟨v, by simp [vuRelease, hv], hxv⟩

/-! ### Maximum of a non-empty list -/

theorem foldl_max_init_le : ∀ (xs : List K) (x : K), x ≤ xs.foldl max x
  | [], _ => le_rfl
  | y :: rest, x => le_trans (le_max_left x y) (foldl_max_init_le rest (max x y))

theorem foldl_max_mem_le : ∀ (xs : List K) (x : K), ∀ z ∈ xs, z ≤ xs.foldl max x
  | [], _, z, h => by simp at h
  | y :: rest, x, z, h => by
    rcases List.mem_cons.1 h with h | h
    · rw [h]; exact le_trans (le_max_right x y) (foldl_max_init_le rest (max x y))
    · exact foldl_max_mem_le rest (max x y) z h

theorem foldl_max_mem : ∀ (xs : List K) (x : K), xs.foldl max x ∈ x :: xs
  | [], x => by simp
  | y :: rest, x => by
    have ih := foldl_max_mem rest (max x y)
    simp only [List.foldl_cons]
    rcases List.mem_cons.1 ih with h | h
    · rw [h]
      rcases max_choice x y with hc | hc <;> rw [hc] <;> simp
    · exact List.mem_cons_of_mem _ (List.mem_cons_of_mem _ h)

end Lemmas

/-- A buffer with at least one frame and one channel. -/
theorem HasShape.ne_nil {K : Type} {m : MatrixXd K} {rows cols : Nat} (h : HasShape m rows cols)
    (hr : 0 < rows) (hc : 0 < cols) : m ≠ [] ∧ ∀ c ∈ m, c ≠ [] := by
  obtain ⟨hlen, hcol⟩ := h
  refine ⟨?_, fun c hcm => ?_⟩
  · intro hm; rw [hm] at hlen; simp at hlen; omega
  · intro hcn
    have := hcol c hcm
    rw [hcn] at this; simp at this; omega

section Lemmas2

variable {K : Type} [LinearOrderedField K]

theorem foldl_max_map_mul (g : K) (hg : 0 ≤ g) :
    ∀ (xs : List K) (x : K),
      (xs.map (fun z => z * g)).foldl max (x * g) = xs.foldl max x * g
  | [], _ => rfl
  | y :: rest, x => by
    simp only [List.map_cons, List.foldl_cons]
    rw [← max_mul_of_nonneg _ _ hg, foldl_max_map_mul g hg rest]

/-! ### `maxCoeff` -/

theorem maxCoeff_ok_iff (m : MatrixXd K) (y : K) :
    maxCoeff m = .ok y ↔ y ∈ m.flatten ∧ ∀ z ∈ m.flatten, z ≤ y := by
  unfold maxCoeff
  cases hm : m.flatten with
  | nil => simp
  | cons x xs =>
    simp only [Except.ok.injEq]
    constructor
    · intro h
      subst h
      refine ⟨foldl_max_mem xs x, fun z hz => ?_⟩
      rcases List.mem_cons.1 hz with hz | hz
      · rw [hz]; exact foldl_max_init_le xs x
      · exact foldl_max_mem_le xs x z hz
    · rintro ⟨hy, hle⟩
      exact le_antisymm (hle _ (foldl_max_mem xs x))
        (by
          rcases List.mem_cons.1 hy with hy | hy
          · rw [hy]; exact foldl_max_init_le xs x
          · exact foldl_max_mem_le xs x y hy)

theorem maxCoeff_ok_of_ne_nil (m : MatrixXd K) (h : m.flatten ≠ []) :
    ∃ y, maxCoeff m = .ok y := by
  unfold maxCoeff
  cases hm : m.flatten with
  | nil => exact absurd hm h
  | cons x xs => exact ⟨_, rfl⟩

theorem flatten_scaleBy (m : MatrixXd K) (g : K) :
    (scaleBy m g).flatten = m.flatten.map (fun x => x * g) := by
  induction m with
  | nil => rfl
  | cons c rest ih =>
    simp only [scaleBy, List.map_cons, List.flatten_cons, List.map_append] at ih ⊢
    rw [ih]

theorem maxCoeff_scaleBy (m : MatrixXd K) (g F : K) (hg : 0 ≤ g) (h : maxCoeff m = .ok F) :
    maxCoeff (scaleBy m g) = .ok (F * g) := by
  unfold maxCoeff at h ⊢
  rw [flatten_scaleBy]
  cases hm : m.flatten with
  | nil => rw [hm] at h; simp at h
  | cons x xs =>
    rw [hm] at h
    simp only [Except.ok.injEq] at h
    simp only [List.map_cons, foldl_max_map_mul g hg, h]

/-! ### `vuMeter` and `calculateVuLevels` through `vuEnvelope` -/

theorem vuMeter_eq_ok (expf : K → K) (signal : List K) (rate : Int) (releaseTime : K)
    (h : signal ≠ []) :
    vuMeter expf signal rate releaseTime = .ok (vuEnvelope (decay expf rate releaseTime) signal) := by
  cases signal with
  | nil => exact absurd rfl h
  | cons x rest => rfl

theorem vuEnvelope_length (alpha : K) (xs : List K) : (vuEnvelope alpha xs).length = xs.length := by
  cases xs with
  | nil => rfl
  | cons x rest => simp [vuEnvelope, vuRelease_length]

theorem vuEnvelope_scale (alpha g : K) (hg : 0 ≤ g) (xs : List K) :
    vuEnvelope alpha (xs.map (fun x => x * g)) = (vuEnvelope alpha xs).map (fun x => x * g) := by
  cases xs with
  | nil => rfl
  | cons x rest =>
    have h : |x * g| = |x| * g := by rw [abs_mul, abs_of_nonneg hg]
    simp only [List.map_cons, vuEnvelope, h, vuRelease_scale alpha g hg]

theorem vuEnvelope_nonneg (alpha : K) (xs : List K) : ∀ v ∈ vuEnvelope alpha xs, 0 ≤ v := by
  cases xs with
  | nil => intro v h; simp [vuEnvelope] at h
  | cons x rest =>
    intro v h
    simp only [vuEnvelope, List.mem_cons] at h
    rcases h with h | h
    · rw [h]; exact abs_nonneg x
    · exact vuRelease_nonneg alpha rest _ v h

theorem vuEnvelope_le (alpha : K) (h0 : 0 ≤ alpha) (h1 : alpha ≤ 1) (B : K) (xs : List K)
    (hx : ∀ x ∈ xs, |x| ≤ B) : ∀ v ∈ vuEnvelope alpha xs, v ≤ B := by
  cases xs with
  | nil => intro v h; simp [vuEnvelope] at h
  | cons x rest =>
    intro v h
    have hxB : |x| ≤ B := hx x (List.mem_cons_self _ _)
    simp only [vuEnvelope, List.mem_cons] at h
    rcases h with h | h
    · rw [h]; exact hxB
    · exact vuRelease_le alpha h0 h1 B rest _ (abs_nonneg x) hxB
        (fun y hy => hx y (List.mem_cons_of_mem _ hy)) v h

theorem vuEnvelope_cover (alpha : K) (xs : List K) :
    ∀ x ∈ xs, ∃ v ∈ vuEnvelope alpha xs, |x| ≤ v := by
  cases xs with
  | nil => intro x h; simp at h
  | cons y rest =>
    intro x h
    rcases List.mem_cons.1 h with h | h
    · exact ⟨|y|, by simp [vuEnvelope], by rw [h]⟩
    · obtain ⟨v, hv, hxv⟩ := vuRelease_cover alpha rest |y| x h
      exact ⟨v, by simp [vuEnvelope, hv], hxv⟩

theorem calculateVuLevels_eq_ok (expf : K → K) (rate : Int) :
    ∀ (data : MatrixXd K), (∀ c ∈ data, c ≠ []) →
      calculateVuLevels expf data rate = .ok (data.map (vuEnvelope (decay expf rate (3 / 10))))
  | [], _ => rfl
  | c :: rest, h => by
    have hc : c ≠ [] := h c (List.mem_cons_self _ _)
    have hr := calculateVuLevels_eq_ok expf rate rest (fun d hd => h d (List.mem_cons_of_mem _ hd))
    simp only [calculateVuLevels, vuMeter_eq_ok expf c rate (3 / 10) hc, hr, List.map_cons]

theorem hasShape_scaleBy {m : MatrixXd K} {rows cols : Nat} (h : HasShape m rows cols) (g : K) :
    HasShape (VUGain.scaleBy m g) rows cols := by
  obtain ⟨hlen, hcol⟩ := h
  refine ⟨by simp [VUGain.scaleBy, hlen], fun c hc => ?_⟩
  simp only [VUGain.scaleBy, List.mem_map] at hc
  obtain ⟨d, hd, rfl⟩ := hc
  simp [hcol d hd]

theorem envelopes_flatten_ne_nil (alpha : K) (m : MatrixXd K) (h1 : m ≠ [])
    (h2 : ∀ c ∈ m, c ≠ []) : (m.map (vuEnvelope alpha)).flatten ≠ [] := by
  cases m with
  | nil => exact absurd rfl h1
  | cons c rest =>
    have hc : c ≠ [] := h2 c (List.mem_cons_self _ _)
    cases c with
    | nil => exact absurd rfl hc
    | cons x xs => simp [vuEnvelope]

/-- Key fact for the solver: on a buffer with a frame and a channel the compared quantity is
linear in a non-negative gain, `f(g) = F * g` with `F = f(1) ≥ 0` the largest level of the
unscaled buffer. -/
theorem maxVu_linear (expf : K → K) (data : MatrixXd K) (rate : Int) (h1 : data ≠ [])
    (h2 : ∀ c ∈ data, c ≠ []) :
    ∃ F : K, maxCoeff (data.map (vuEnvelope (decay expf rate (3 / 10)))) = .ok F ∧ 0 ≤ F ∧
      ∀ g : K, 0 ≤ g → maxVu expf data rate g = .ok (F * g) := by
  obtain ⟨F, hF⟩ := maxCoeff_ok_of_ne_nil _
    (envelopes_flatten_ne_nil (decay expf rate (3 / 10)) data h1 h2)
  refine ⟨F, hF, ?_, fun g hg => ?_⟩
  · obtain ⟨hmem, _⟩ := (maxCoeff_ok_iff _ _).1 hF
    obtain ⟨l, hl, hFl⟩ := List.mem_flatten.1 hmem
    obtain ⟨c, _, rfl⟩ := List.mem_map.1 hl
    exact vuEnvelope_nonneg _ c F hFl
  · have hne : ∀ c ∈ scaleBy data g, c ≠ [] := by
      intro c hc
      simp only [scaleBy, List.mem_map] at hc
      obtain ⟨d, hd, rfl⟩ := hc
      simpa using h2 d hd
    have hmap : (scaleBy data g).map (vuEnvelope (decay expf rate (3 / 10))) =
        scaleBy (data.map (vuEnvelope (decay expf rate (3 / 10)))) g := by
      simp only [scaleBy, List.map_map]
      apply List.map_congr_left
      intro c _
      simp only [Function.comp, vuEnvelope_scale _ g hg]
    simp only [maxVu, calculateVuLevels_eq_ok expf rate _ hne, hmap]
    exact maxCoeff_scaleBy _ g F hg hF

end Lemmas2

section Bisection

variable {K : Type} [LinearOrderedField K]

/-! ### Unfolding the `while` loop -/

theorem adjustGainLoop_done (expf : K → K) (data : MatrixXd K) (rate : Int) (refLevel tol : K)
    (fuel : Nat) (b : Bracket K) (iters : Nat) (h : b.high - b.low ≤ tol) :
    adjustGainLoop expf data rate refLevel tol fuel b iters = .ok (b, iters) := by
  cases fuel <;> simp [adjustGainLoop, not_lt.2 h]

theorem adjustGainLoop_zero (expf : K → K) (data : MatrixXd K) (rate : Int) (refLevel tol : K)
    (b : Bracket K) (iters : Nat) (h : tol < b.high - b.low) :
    adjustGainLoop expf data rate refLevel tol 0 b iters = .error .outOfFuel := by
  simp [adjustGainLoop, h]

theorem adjustGainLoop_succ (expf : K → K) (data : MatrixXd K) (rate : Int) (refLevel tol : K)
    (fuel : Nat) (b b1 : Bracket K) (iters : Nat) (h : tol < b.high - b.low)
    (hstep : adjustGainStep expf data rate refLevel b = .ok b1) :
    adjustGainLoop expf data rate refLevel tol (fuel + 1) b iters =
      adjustGainLoop expf data rate refLevel tol fuel b1 (iters + 1) := by
  rw [adjustGainLoop]
  simp [h, hstep]

theorem adjustGainLoop_fault (expf : K → K) (data : MatrixXd K) (rate : Int) (refLevel tol : K)
    (fuel : Nat) (b : Bracket K) (iters : Nat) (e : Fault) (h : tol < b.high - b.low)
    (hstep : adjustGainStep expf data rate refLevel b = .error e) :
    adjustGainLoop expf data rate refLevel tol (fuel + 1) b iters = .error e := by
  rw [adjustGainLoop]
  simp [h, hstep]

/-- The loop body when the compared quantity is `F * g`. -/
theorem adjustGainStep_linear (expf : K → K) (data : MatrixXd K) (rate : Int) (refLevel F : K)
    (hf : ∀ g : K, 0 ≤ g → maxVu expf data rate g = .ok (F * g))
    (b : Bracket K) (h0 : 0 ≤ b.low) (hle : b.low ≤ b.high) :
    adjustGainStep expf data rate refLevel b =
      .ok (if F * ((b.low + b.high) / 2) < refLevel then ⟨(b.low + b.high) / 2, b.high⟩
        else ⟨b.low, (b.low + b.high) / 2⟩) := by
  have hmid : (0 : K) ≤ (b.low + b.high) / 2 := by linarith
  simp only [adjustGainStep, hf _ hmid]
  split <;> rfl

theorem exists_isIterCount [Archimedean K] (w tol : K) (htol : 0 < tol) :
    ∃ n, IsIterCount w tol n := by
  classical
  have hex : ∃ n : Nat, w / 2 ^ n ≤ tol := by
    obtain ⟨n, hn⟩ := pow_unbounded_of_one_lt (w / tol) (one_lt_two : (1 : K) < 2)
    refine ⟨n, ?_⟩
    have h2 : (0 : K) < 2 ^ n := by positivity
    rw [div_le_iff₀ h2]
    rw [div_lt_iff₀ htol] at hn
    linarith
  exact ⟨Nat.find hex, Nat.find_spec hex, fun m hm => not_le.1 (Nat.find_min hex hm)⟩

theorem IsIterCount.unique {w tol : K} {n m : Nat} (hn : IsIterCount w tol n)
    (hm : IsIterCount w tol m) : n = m := by
  rcases Nat.lt_trichotomy n m with h | h | h
  · exact absurd hn.1 (not_le.2 (hm.2 n h))
  · exact h
  · exact absurd hm.1 (not_le.2 (hn.2 m h))

theorem IsIterCount.pred {w tol : K} {n : Nat} (h : IsIterCount w tol (n + 1)) :
    tol < w ∧ IsIterCount (w / 2) tol n := by
  refine ⟨by simpa using h.2 0 (Nat.succ_pos n), ?_, fun m hm => ?_⟩
  · have := h.1
    rwa [pow_succ, mul_comm, ← div_div] at this
  · have := h.2 (m + 1) (Nat.succ_lt_succ hm)
    rwa [pow_succ, mul_comm, ← div_div] at this

/-- What the loop does from a bracket `b` with `0 ≤ low ≤ high` when the compared quantity is
`F * g` with `F ≥ 0`: it runs exactly `n` iterations, halving the width each time. -/
theorem adjustGainLoop_run (expf : K → K) (data : MatrixXd K) (rate : Int) (refLevel tol F : K)
    (hF : 0 ≤ F) (hf : ∀ g : K, 0 ≤ g → maxVu expf data rate g = .ok (F * g)) :
    ∀ (n : Nat) (b : Bracket K) (iters : Nat), 0 ≤ b.low → b.low ≤ b.high →
      IsIterCount (b.high - b.low) tol n →
      ∃ b1 : Bracket K,
        (∀ fuel, n ≤ fuel →
          adjustGainLoop expf data rate refLevel tol fuel b iters = .ok (b1, iters + n)) ∧
        (∀ fuel, fuel < n →
          adjustGainLoop expf data rate refLevel tol fuel b iters = .error .outOfFuel) ∧
        b1.high - b1.low = (b.high - b.low) / 2 ^ n ∧
        b.low ≤ b1.low ∧ b1.low ≤ b1.high ∧ b1.high ≤ b.high ∧
        (F * b.low < refLevel → F * b1.low < refLevel) ∧
        (refLevel ≤ F * b.high → refLevel ≤ F * b1.high) ∧
        (refLevel ≤ F * b.low → b1.low = b.low) ∧
        (F * b.high < refLevel → b1.high = b.high) := by
  intro n
  induction n with
  | zero =>
    intro b iters _ hle hn
    have hw : b.high - b.low ≤ tol := by simpa using hn.1
    exact ⟨b, fun fuel _ => adjustGainLoop_done _ _ _ _ _ fuel b iters hw,
      fun fuel hfu => absurd hfu (Nat.not_lt_zero _), by simp, le_rfl, hle, le_rfl,
      id, id, fun _ => rfl, fun _ => rfl⟩
  | succ n ih =>
    intro b iters h0 hle hn
    obtain ⟨hgt, hn1⟩ := hn.pred
    have hstep := adjustGainStep_linear expf data rate refLevel F hf b h0 hle
    have hmidlo : b.low ≤ (b.low + b.high) / 2 := by linarith
    have hmidhi : (b.low + b.high) / 2 ≤ b.high := by linarith
    by_cases hc : F * ((b.low + b.high) / 2) < refLevel
    · rw [if_pos hc] at hstep
      have hw : b.high - (b.low + b.high) / 2 = (b.high - b.low) / 2 := by ring
      obtain ⟨b1, hrun, hout, hwid, hlo, hmid, hhi, hA, hB, hC, hD⟩ :=
        ih ⟨(b.low + b.high) / 2, b.high⟩ (iters + 1) (by simpa using le_trans h0 hmidlo)
          (by simpa using hmidhi) (by simpa [hw] using hn1)
      refine ⟨b1, fun fuel hfu => ?_, fun fuel hfu => ?_, ?_, le_trans hmidlo hlo, hmid, hhi,
        fun _ => hA hc, hB, fun hL => ?_, hD⟩
      · obtain ⟨k, rfl⟩ := Nat.exists_eq_succ_of_ne_zero (by omega : fuel ≠ 0)
        rw [adjustGainLoop_succ _ _ _ _ _ k b _ iters hgt hstep, hrun k (by omega)]
        simp [Nat.add_assoc, Nat.add_comm 1 n]
      · cases fuel with
        | zero => exact adjustGainLoop_zero _ _ _ _ _ b iters hgt
        | succ k =>
          rw [adjustGainLoop_succ _ _ _ _ _ k b _ iters hgt hstep]
          exact hout k (by omega)
      · rw [hwid]; simp only [hw]; rw [pow_succ, mul_comm, div_div]
      · exact absurd (lt_of_le_of_lt (le_trans hL (mul_le_mul_of_nonneg_left hmidlo hF)) hc)
          (lt_irrefl _)
    · rw [if_neg hc] at hstep
      have hw : (b.low + b.high) / 2 - b.low = (b.high - b.low) / 2 := by ring
      obtain ⟨b1, hrun, hout, hwid, hlo, hmid, hhi, hA, hB, hC, hD⟩ :=
        ih ⟨b.low, (b.low + b.high) / 2⟩ (iters + 1) (by simpa using h0)
          (by simpa using hmidlo) (by simpa [hw] using hn1)
      refine ⟨b1, fun fuel hfu => ?_, fun fuel hfu => ?_, ?_, hlo, hmid, le_trans hhi hmidhi,
        hA, fun _ => hB (not_lt.1 hc), hC, fun hL => ?_⟩
      · obtain ⟨k, rfl⟩ := Nat.exists_eq_succ_of_ne_zero (by omega : fuel ≠ 0)
        rw [adjustGainLoop_succ _ _ _ _ _ k b _ iters hgt hstep, hrun k (by omega)]
        simp [Nat.add_assoc, Nat.add_comm 1 n]
      · cases fuel with
        | zero => exact adjustGainLoop_zero _ _ _ _ _ b iters hgt
        | succ k =>
          rw [adjustGainLoop_succ _ _ _ _ _ k b _ iters hgt hstep]
          exact hout k (by omega)
      · rw [hwid]; simp only [hw]; rw [pow_succ, mul_comm, div_div]
      · exact absurd (lt_of_le_of_lt (mul_le_mul_of_nonneg_left hmidhi hF) hL) hc

end Bisection

section Solver

variable {K : Type} [LinearOrderedField K]

theorem adjustGain_of_loop (expf : K → K) (fuel : Nat) (data : MatrixXd K) (rate : Int)
    (refLevel tol : K) (b : Bracket K) (n : Nat)
    (h : adjustGainLoop expf data rate refLevel tol fuel ⟨1 / 10, 10⟩ 0 = .ok (b, n)) :
    adjustGain expf fuel data rate refLevel tol = .ok ((b.low + b.high) / 2) := by
  unfold adjustGain
  rw [h]

theorem adjustGain_of_loop_error (expf : K → K) (fuel : Nat) (data : MatrixXd K) (rate : Int)
    (refLevel tol : K) (e : Fault)
    (h : adjustGainLoop expf data rate refLevel tol fuel ⟨1 / 10, 10⟩ 0 = .error e) :
    adjustGain expf fuel data rate refLevel tol = .error e := by
  unfold adjustGain
  rw [h]

/-- Summary of a run of `adjustGain` on a buffer with a frame and a channel, for `tol > 0`:
the compared quantity is `F * g`, the loop runs the `n` iterations fixed by `tol` and ends in
a bracket `b` inside `[0.1, 10]` of width `9.9 / 2 ^ n ≤ tol` that keeps whichever side of the
reference level its ends started on. -/
theorem adjustGain_run [Archimedean K] (expf : K → K) (data : MatrixXd K) (rate : Int)
    (refLevel tol : K) (h1 : data ≠ []) (h2 : ∀ c ∈ data, c ≠ []) (htol : 0 < tol) :
    ∃ (F : K) (n : Nat) (b : Bracket K),
      maxCoeff (data.map (vuEnvelope (decay expf rate (3 / 10)))) = .ok F ∧ 0 ≤ F ∧
      (∀ g : K, 0 ≤ g → maxVu expf data rate g = .ok (F * g)) ∧
      IsIterCount (99 / 10) tol n ∧
      (∀ fuel, n ≤ fuel →
        adjustGainLoop expf data rate refLevel tol fuel ⟨1 / 10, 10⟩ 0 = .ok (b, n)) ∧
      (∀ fuel, n ≤ fuel →
        adjustGain expf fuel data rate refLevel tol = .ok ((b.low + b.high) / 2)) ∧
      (∀ fuel, fuel < n → adjustGain expf fuel data rate refLevel tol = .error .outOfFuel) ∧
      b.high - b.low = 99 / 10 / 2 ^ n ∧ b.high - b.low ≤ tol ∧
      1 / 10 ≤ b.low ∧ b.low ≤ b.high ∧ b.high ≤ 10 ∧
      (F * (1 / 10) < refLevel → F * b.low < refLevel) ∧
      (refLevel ≤ F * 10 → refLevel ≤ F * b.high) ∧
      (refLevel ≤ F * (1 / 10) → b.low = 1 / 10) ∧
      (F * 10 < refLevel → b.high = 10) := by
  obtain ⟨F, hF, hF0, hf⟩ := maxVu_linear expf data rate h1 h2
  obtain ⟨n, hn⟩ := exists_isIterCount (99 / 10 : K) tol htol
  have hw : (⟨1 / 10, 10⟩ : Bracket K).high - (⟨1 / 10, 10⟩ : Bracket K).low = 99 / 10 := by
    norm_num
  obtain ⟨b, hrun, hout, hwid, hlo, hmid, hhi, hA, hB, hC, hD⟩ :=
    adjustGainLoop_run expf data rate refLevel tol F hF0 hf n ⟨1 / 10, 10⟩ 0
      (by norm_num) (by norm_num) (by rw [hw]; exact hn)
  rw [hw] at hwid
  refine ⟨F, n, b, hF, hF0, hf, hn, fun fuel hfu => ?_, fun fuel hfu => ?_, fun fuel hfu => ?_,
    hwid, ?_, hlo, hmid, hhi, hA, hB, hC, hD⟩
  · simpa using hrun fuel hfu
  · exact adjustGain_of_loop expf fuel data rate refLevel tol b n (by simpa using hrun fuel hfu)
  · exact adjustGain_of_loop_error expf fuel data rate refLevel tol _ (hout fuel hfu)
  · rw [hwid]; exact hn.1

/-- With the default tolerance `1e-4` the bracket `[0.1, 10]` needs 17 halvings. -/
theorem isIterCount_default : IsIterCount (99 / 10 : K) (1 / 10000) 17 := by
  refine ⟨by norm_num, fun m hm => ?_⟩
  have h2 : (2 : K) ^ m ≤ 2 ^ 16 := pow_le_pow_right₀ (by norm_num) (by omega)
  have hpos : (0 : K) < 2 ^ m := by positivity
  rw [lt_div_iff₀ hpos]
  calc (1 / 10000 : K) * 2 ^ m ≤ 1 / 10000 * 2 ^ 16 := by
        apply mul_le_mul_of_nonneg_left h2; norm_num
    _ < 99 / 10 := by norm_num

/-- With a decay factor in `[0, 1]` the largest level of a buffer is its largest absolute
sample: the release never raises the level above the samples seen. -/
theorem maxCoeff_envelopes_eq_peakAbs (alpha : K) (h0 : 0 ≤ alpha) (h1 : alpha ≤ 1)
    (data : MatrixXd K) (F M : K) (hF : maxCoeff (data.map (vuEnvelope alpha)) = .ok F)
    (hM : peakAbs data = .ok M) : F = M := by
  obtain ⟨hFmem, hFle⟩ := (maxCoeff_ok_iff _ _).1 hF
  obtain ⟨hMmem, hMle⟩ := (maxCoeff_ok_iff _ _).1 hM
  apply le_antisymm
  · obtain ⟨l, hl, hFl⟩ := List.mem_flatten.1 hFmem
    obtain ⟨c, hc, rfl⟩ := List.mem_map.1 hl
    refine vuEnvelope_le alpha h0 h1 M c (fun x hx => hMle _ ?_) F hFl
    exact List.mem_flatten.2 ⟨c.map (fun x => |x|), List.mem_map.2 ⟨c, hc, rfl⟩,
      List.mem_map.2 ⟨x, hx, rfl⟩⟩
  · obtain ⟨l, hl, hMl⟩ := List.mem_flatten.1 hMmem
    obtain ⟨c, hc, rfl⟩ := List.mem_map.1 hl
    obtain ⟨x, hx, rfl⟩ := List.mem_map.1 hMl
    obtain ⟨v, hv, hxv⟩ := vuEnvelope_cover alpha c x hx
    exact le_trans hxv (hFle v (List.mem_flatten.2 ⟨_, List.mem_map.2 ⟨c, hc, rfl⟩, hv⟩))

/-- With a decay factor in `[0, 1]` the largest level is bounded by any bound on the absolute
values of the samples. -/
theorem maxCoeff_envelopes_le (alpha : K) (h0 : 0 ≤ alpha) (h1 : alpha ≤ 1) (B : K)
    (data : MatrixXd K) (hB : ∀ c ∈ data, ∀ x ∈ c, |x| ≤ B) (F : K)
    (hF : maxCoeff (data.map (vuEnvelope alpha)) = .ok F) : F ≤ B := by
  obtain ⟨hFmem, _⟩ := (maxCoeff_ok_iff _ _).1 hF
  obtain ⟨l, hl, hFl⟩ := List.mem_flatten.1 hFmem
  obtain ⟨c, hc, rfl⟩ := List.mem_map.1 hl
  exact vuEnvelope_le alpha h0 h1 B c (hB c hc) F hFl

/-- The decay factor is in `[0, 1]` for a positive rate and release time when `expf` maps the
negative numbers into `[0, 1]`, as `exp` does. -/
theorem decay_mem_unit (expf : K → K) (hexp : ∀ t : K, t < 0 → 0 ≤ expf t ∧ expf t ≤ 1)
    (rate : Int) (hrate : 0 < rate) (releaseTime : K) (hrel : 0 < releaseTime) :
    0 ≤ decay expf rate releaseTime ∧ decay expf rate releaseTime ≤ 1 := by
  apply hexp
  have hr : (0 : K) < (rate : K) := by exact_mod_cast hrate
  have : (0 : K) < releaseTime * (rate : K) := mul_pos hrel hr
  exact div_neg_of_neg_of_pos (by norm_num) this

theorem real_exp_unit : ∀ t : ℝ, t < 0 → 0 ≤ Real.exp t ∧ Real.exp t ≤ 1 :=
  fun t ht => ⟨(Real.exp_pos t).le, Real.exp_le_one_iff.2 ht.le⟩

theorem expQ_unit : ∀ t : ℚ, t < 0 → 0 ≤ expQ t ∧ expQ t ≤ 1 := by
  intro t ht
  have h1 : (0 : ℚ) < 1 - t := by linarith
  simp only [expQ, if_pos ht.le]
  refine ⟨by positivity, ?_⟩
  rw [div_le_iff₀ h1]
  linarith

end Solver

section Concrete

variable {K : Type} [LinearOrderedField K]

/-- The compared quantity for a buffer of one channel and one frame. -/
theorem maxVu_single (expf : K → K) (x : K) (rate : Int) (g : K) :
    maxVu expf [[x]] rate g = .ok |x * g| := by
  simp [maxVu, scaleBy, calculateVuLevels, vuMeter, vuRelease, maxCoeff]

/-- On an all-zero buffer scaling changes nothing. -/
theorem scaleBy_zero_data (data : MatrixXd K) (hz : ∀ c ∈ data, ∀ x ∈ c, x = 0) (g : K) :
    scaleBy data g = scaleBy data 0 := by
  unfold scaleBy
  apply List.map_congr_left
  intro c hc
  apply List.map_congr_left
  intro x hx
  rw [hz c hc x hx]; simp

theorem maxVu_zero_data (expf : K → K) (data : MatrixXd K) (rate : Int)
    (hz : ∀ c ∈ data, ∀ x ∈ c, x = 0) (g : K) :
    maxVu expf data rate g = maxVu expf data rate 0 := by
  unfold maxVu
  rw [scaleBy_zero_data data hz g]

/-- The value returned when one end of the bracket never moves (saturation). -/
theorem adjustGain_saturation [Archimedean K] (expf : K → K) (data : MatrixXd K) (rate : Int)
    (refLevel tol : K) (h1 : data ≠ []) (h2 : ∀ c ∈ data, c ≠ []) (htol : 0 < tol) :
    ∃ (n : Nat) (y1 y10 : K), IsIterCount (99 / 10) tol n ∧
      maxVu expf data rate (1 / 10) = .ok y1 ∧ maxVu expf data rate 10 = .ok y10 ∧
      (y10 < refLevel → ∀ fuel, n ≤ fuel →
        adjustGain expf fuel data rate refLevel tol = .ok (10 - 99 / 10 / 2 ^ (n + 1))) ∧
      (refLevel ≤ y1 → ∀ fuel, n ≤ fuel →
        adjustGain expf fuel data rate refLevel tol = .ok (1 / 10 + 99 / 10 / 2 ^ (n + 1))) := by
  obtain ⟨F, n, b, _, _, hf, hn, _, hrun, _, hwid, _, _, _, _, _, _, hC, hD⟩ :=
    adjustGain_run expf data rate refLevel tol h1 h2 htol
  refine ⟨n, F * (1 / 10), F * 10, hn, hf _ (by norm_num), hf _ (by norm_num),
    fun hsat fuel hfu => ?_, fun hsat fuel hfu => ?_⟩
  · rw [hrun fuel hfu]
    have hh := hD hsat
    have hl : b.low = 10 - 99 / 10 / 2 ^ n := by rw [← hwid, hh]; ring
    rw [hl, hh, pow_succ, ← div_div]; congr 1; ring
  · rw [hrun fuel hfu]
    have hl := hC hsat
    have hh : b.high = 1 / 10 + 99 / 10 / 2 ^ n := by rw [← hwid, hl]; ring
    rw [hl, hh, pow_succ, ← div_div]; congr 1; ring

end Concrete

/-- The default reference level over the reals, `10 ^ (-18 / 20)`, lies in `[0.1, 0.5]`. -/
theorem ref_level_real_bounds :
    (1 / 10 : ℝ) ≤ REF_LEVEL (fun a b : ℝ => a ^ b) ∧ REF_LEVEL (fun a b : ℝ => a ^ b) ≤ 1 / 2 := by
  have h10 : (0 : ℝ) ≤ 10 := by norm_num
  simp only [REF_LEVEL, VU_REF_DB]
  constructor
  · have h := Real.rpow_le_rpow_of_exponent_le (x := (10 : ℝ)) (y := -1) (z := -18 / 20)
      (by norm_num) (by norm_num)
    rw [Real.rpow_neg_one] at h
    linarith
  · have hx : (0 : ℝ) ≤ (10 : ℝ) ^ (-18 / 20 : ℝ) := Real.rpow_nonneg h10 _
    have hp : ((10 : ℝ) ^ (-18 / 20 : ℝ)) ^ (10 : ℕ) = 10 ^ (-9 : ℝ) := by
      rw [← Real.rpow_natCast, ← Real.rpow_mul h10]; norm_num
    have h9 : (10 : ℝ) ^ (-9 : ℝ) = 1 / 10 ^ 9 := by
      rw [Real.rpow_neg h10, ← Real.rpow_natCast]; norm_num
    apply le_of_pow_le_pow_left₀ (n := 10) (by norm_num) (by norm_num)
    rw [hp, h9]; norm_num

section VuMeterLemmas

variable {K : Type} [LinearOrderedField K]

/-- Pure release: after a level `prev ≥ 0`, zero samples give the geometric decay. -/
theorem vuRelease_replicate_zero (alpha : K) (h0 : 0 ≤ alpha) :
    ∀ (n : Nat) (prev : K), 0 ≤ prev →
      vuRelease alpha prev (List.replicate n 0) =
        (List.range n).map (fun i => alpha ^ (i + 1) * prev)
  | 0, _, _ => rfl
  | n + 1, prev, hp => by
    have hm : max (alpha * prev) |(0 : K)| = alpha * prev := by
      rw [abs_zero]; exact max_eq_left (mul_nonneg h0 hp)
    rw [List.replicate_succ, vuRelease, hm,
      vuRelease_replicate_zero alpha h0 n (alpha * prev) (mul_nonneg h0 hp),
      List.range_succ_eq_map, List.map_cons, List.map_map]
    simp only [zero_add, pow_one, List.cons.injEq, true_and]
    apply List.map_congr_left
    intro i _
    simp only [Function.comp, Nat.succ_eq_add_one]
    ring

theorem vuEnvelope_impulse (alpha : K) (h0 : 0 ≤ alpha) (a : K) (n : Nat) :
    vuEnvelope alpha (a :: List.replicate n 0) =
      (List.range (n + 1)).map (fun i => alpha ^ i * |a|) := by
  rw [vuEnvelope, vuRelease_replicate_zero alpha h0 n |a| (abs_nonneg a),
    List.range_succ_eq_map, List.map_cons, List.map_map]
  simp only [pow_zero, one_mul, List.cons.injEq, true_and]
  rfl

/-- Every level is at least the absolute value of the sample at the same index. -/
theorem vuEnvelope_getElem_ge (alpha : K) (xs : List K) (i : Nat) (hi : i < xs.length) :
    ∃ xi vi : K, xs[i]? = some xi ∧ (vuEnvelope alpha xs)[i]? = some vi ∧ |xi| ≤ vi := by
  cases xs with
  | nil => simp at hi
  | cons x rest =>
    cases i with
    | zero => exact ⟨x, |x|, by simp, by simp [vuEnvelope], le_rfl⟩
    | succ j =>
      have hj : j < rest.length := by simpa using hi
      refine ⟨rest[j], max (alpha * (|x| :: vuRelease alpha |x| rest).getD j 0) |rest.getD j 0|,
        by simp [List.getElem?_eq_getElem hj], ?_, ?_⟩
      · simp only [vuEnvelope, List.getElem?_cons_succ]
        exact vuRelease_getElem alpha rest |x| j hj
      · rw [List.getD_eq_getElem _ _ hj]
        exact le_max_right _ _

end VuMeterLemmas

/-- Bounds on `exp (-1/4)` from the first five terms of the exponential series. -/
theorem exp_neg_quarter_bounds :
    (7787 / 10000 : ℝ) ≤ Real.exp (-1 / 4) ∧ Real.exp (-1 / 4) ≤ 7789 / 10000 := by
  have h := Real.exp_bound (x := (-1 / 4 : ℝ)) (by rw [abs_le]; constructor <;> norm_num)
    (n := 5) (by norm_num)
  have hx : |(-1 / 4 : ℝ)| = 1 / 4 := by rw [abs_of_neg (by norm_num)]; norm_num
  rw [hx] at h
  simp only [Finset.sum_range_succ, Finset.sum_range_zero, Nat.factorial] at h
  norm_num at h
  rw [abs_le] at h
  constructor <;> linarith [h.1, h.2]

section SampleLemmas

variable {K : Type} [LinearOrderedField K]

theorem readSample_bounds (s : Int) (h1 : -32768 ≤ s) (h2 : s ≤ 32767) :
    (-32768 / 32767 : K) ≤ readSample s ∧ (readSample s : K) ≤ 1 := by
  have hs1 : ((-32768 : Int) : K) ≤ (s : K) := Int.cast_le.2 h1
  have hs2 : (s : K) ≤ ((32767 : Int) : K) := Int.cast_le.2 h2
  simp only [readSample, SHORT_MAX]
  push_cast at hs1 hs2 ⊢
  constructor
  · rw [div_le_div_iff_of_pos_right (by norm_num)]; exact hs1
  · rw [div_le_one (by norm_num)]; exact hs2

theorem readSample_mul_max (s : Int) :
    (readSample s : K) * ((SHORT_MAX : Int) : K) = (s : K) := by
  simp only [readSample, SHORT_MAX]
  push_cast
  field_simp

theorem toShort_intCast [FloorRing K] (s : Int) (h1 : -32768 ≤ s) (h2 : s ≤ 32767) :
    toShort (s : K) = some s := by
  simp only [toShort, Int.floor_intCast, Int.ceil_intCast, ite_self, SHORT_MIN, SHORT_MAX]
  rw [if_pos ⟨h1, h2⟩]

/-- A value of absolute value below 1 is converted to a sample strictly inside the range. -/
theorem saveSample_of_abs_lt_one [FloorRing K] (x : K) (hx : |x| < 1) :
    ∃ t : Int, saveSample x = some t ∧ -32767 ≤ t ∧ t ≤ 32767 := by
  obtain ⟨hlo, hhi⟩ := abs_lt.1 hx
  have h1 : x * ((SHORT_MAX : Int) : K) < 32767 := by
    simp only [SHORT_MAX]; push_cast; linarith
  have h2 : (-32767 : K) < x * ((SHORT_MAX : Int) : K) := by
    simp only [SHORT_MAX]; push_cast; linarith
  by_cases h0 : 0 ≤ x * ((SHORT_MAX : Int) : K)
  · have ht1 : ⌊x * ((SHORT_MAX : Int) : K)⌋ ≤ 32767 := by
      have : ⌊x * ((SHORT_MAX : Int) : K)⌋ < 32767 := by
        rw [Int.floor_lt]; exact_mod_cast h1
      omega
    have ht0 : 0 ≤ ⌊x * ((SHORT_MAX : Int) : K)⌋ := Int.floor_nonneg.2 h0
    refine ⟨⌊x * ((SHORT_MAX : Int) : K)⌋, ?_, by omega, ht1⟩
    simp only [saveSample, toShort, if_pos h0]
    rw [if_pos]
    exact ⟨le_trans (by decide : SHORT_MIN ≤ 0) ht0, le_trans ht1 (by decide : (32767 : Int) ≤ SHORT_MAX)⟩
  · have hneg : x * ((SHORT_MAX : Int) : K) ≤ 0 := (not_le.1 h0).le
    have ht1 : -32767 ≤ ⌈x * ((SHORT_MAX : Int) : K)⌉ := by
      have : -32767 < ⌈x * ((SHORT_MAX : Int) : K)⌉ := by
        rw [Int.lt_ceil]; exact_mod_cast h2
      omega
    have ht0 : ⌈x * ((SHORT_MAX : Int) : K)⌉ ≤ 0 := by
      rw [Int.ceil_le]; exact_mod_cast hneg
    refine ⟨⌈x * ((SHORT_MAX : Int) : K)⌉, ?_, ht1, by omega⟩
    simp only [saveSample, toShort, if_neg h0]
    rw [if_pos]
    exact ⟨le_trans (by decide : SHORT_MIN ≤ -32767) ht1, le_trans ht0 (by decide : (0 : Int) ≤ SHORT_MAX)⟩

end SampleLemmas

section BufferLemmas

variable {K : Type} [LinearOrderedField K]

theorem collect_map_some {α : Type} : ∀ l : List α, collect (l.map some) = some l
  | [] => rfl
  | a :: rest => by simp [collect, collect_map_some rest]

theorem readWavFile_entry (buffer : List Int) (frames channels i j : Nat) (hi : i < frames)
    (hj : j < channels) :
    (((readWavFile buffer frames channels : MatrixXd K).getD j []).getD i 0) =
      readSample (buffer.getD (i * channels + j) 0) := by
  simp [readWavFile, List.getD_eq_getElem?_getD, List.getElem?_map, List.getElem?_range, hi, hj]

theorem range_map_getD_eq_take (buffer : List Int) (c : Nat) (hc : c ≤ buffer.length) :
    (List.range c).map (fun j => buffer.getD j 0) = buffer.take c := by
  apply List.ext_getElem?
  intro k
  by_cases hk : k < c
  · have hkl : k < buffer.length := lt_of_lt_of_le hk hc
    rw [List.getElem?_map, List.getElem?_range hk, List.getElem?_take_of_lt hk,
      List.getElem?_eq_getElem hkl]
    simp [List.getElem?_eq_getElem hkl]
  · rw [List.getElem?_eq_none (by simpa using hk), List.getElem?_take_eq_none (by omega)]

/-- Reading a vector of `frames * channels` entries row by row gives the vector back. -/
theorem interleave_getD (channels : Nat) :
    ∀ (frames : Nat) (buffer : List Int), buffer.length = frames * channels →
      (List.range frames).flatMap (fun i =>
        (List.range channels).map (fun j => buffer.getD (i * channels + j) 0)) = buffer
  | 0, buffer, hlen => by
    have : buffer = [] := List.eq_nil_of_length_eq_zero (by simpa using hlen)
    simp [this]
  | frames + 1, buffer, hlen => by
    have hc : channels ≤ buffer.length := by
      rw [hlen, Nat.add_mul]; omega
    have hdrop : (buffer.drop channels).length = frames * channels := by
      rw [List.length_drop, hlen, Nat.add_mul]; omega
    have ih := interleave_getD channels frames (buffer.drop channels) hdrop
    rw [List.range_succ_eq_map, List.flatMap_cons, List.flatMap_map]
    simp only [Nat.zero_mul, Nat.zero_add]
    rw [range_map_getD_eq_take buffer channels hc]
    have hrow : ∀ i j : Nat, buffer.getD (Nat.succ i * channels + j) 0 =
        (buffer.drop channels).getD (i * channels + j) 0 := by
      intro i j
      rw [List.getD_eq_getElem?_getD, List.getD_eq_getElem?_getD, List.getElem?_drop]
      congr 2
      rw [Nat.succ_mul]; omega
    simp only [hrow]
    rw [ih, List.take_append_drop]

theorem getD_short_range (buffer : List Int)
    (hrange : ∀ s ∈ buffer, -32768 ≤ s ∧ s ≤ 32767) (k : Nat) :
    -32768 ≤ buffer.getD k 0 ∧ buffer.getD k 0 ≤ 32767 := by
  rw [List.getD_eq_getElem?_getD]
  cases h : buffer[k]? with
  | none => simp
  | some s => exact hrange s (List.getElem?_mem h)

/-- Encoding the decoded matrix gives the sample vector back. -/
theorem saveWavFile_readWavFile [FloorRing K] (buffer : List Int) (frames channels : Nat)
    (hlen : buffer.length = frames * channels)
    (hrange : ∀ s ∈ buffer, -32768 ≤ s ∧ s ≤ 32767) :
    saveWavFile (readWavFile buffer frames channels : MatrixXd K) frames channels =
      some buffer := by
  have hrows : (List.range frames).flatMap (fun i => (List.range channels).map (fun j =>
      saveSample (((readWavFile buffer frames channels : MatrixXd K).getD j []).getD i 0))) =
      ((List.range frames).flatMap (fun i => (List.range channels).map (fun j =>
        buffer.getD (i * channels + j) 0))).map some := by
    rw [List.map_flatMap]
    simp only [List.flatMap, List.map_map]
    congr 1
    apply List.map_congr_left
    intro i hi
    apply List.map_congr_left
    intro j hj
    obtain ⟨h1, h2⟩ := getD_short_range buffer hrange (i * channels + j)
    rw [readWavFile_entry buffer frames channels i j (List.mem_range.1 hi)
      (List.mem_range.1 hj)]
    simp only [Function.comp, saveSample, readSample_mul_max]
    exact toShort_intCast _ h1 h2
  rw [saveWavFile, hrows, collect_map_some, interleave_getD channels frames buffer hlen]

end BufferLemmas

theorem find_last_of_not_mem (c : Char) :
    ∀ l : List Char, c ∉ l → find_last_of l c = none
  | [], _ => rfl
  | x :: rest, h => by
    have hx : x ≠ c := fun e => h (by simp [e])
    have hr : c ∉ rest := fun e => h (List.mem_cons_of_mem _ e)
    simp [find_last_of, find_last_of_not_mem c rest hr, hx]

theorem find_last_of_append (c : Char) (ext : List Char) (h : c ∉ ext) :
    ∀ stem : List Char, find_last_of (stem ++ c :: ext) c = some stem.length
  | [] => by simp [find_last_of, find_last_of_not_mem c ext h]
  | x :: rest => by simp [find_last_of, find_last_of_append c ext h rest]

/-- The output path for a path whose last dot is followed by `ext`. -/
theorem outputFilePath_stem (stem ext : List Char) (h : '.' ∉ ext) :
    outputFilePath (stem ++ '.' :: ext) = stem ++ "_VUoutput.wav".toList := by
  simp [outputFilePath, substr, find_last_of_append '.' ext h stem]


section PeakLemmas

variable {K : Type} [LinearOrderedField K]

theorem vuRelease_map_abs (alpha : K) :
    ∀ (xs : List K) (prev : K),
      vuRelease alpha prev (xs.map (fun x => |x|)) = vuRelease alpha prev xs
  | [], _ => rfl
  | x :: rest, prev => by
    simp only [List.map_cons, vuRelease, abs_abs]
    rw [vuRelease_map_abs alpha rest]

theorem vuEnvelope_map_abs (alpha : K) (xs : List K) :
    vuEnvelope alpha (xs.map (fun x => |x|)) = vuEnvelope alpha xs := by
  cases xs with
  | nil => rfl
  | cons x rest => simp only [List.map_cons, vuEnvelope, abs_abs, vuRelease_map_abs]

/-- The levels of a scaled signal, for a gain of either sign. -/
theorem vuEnvelope_scale_abs (alpha g : K) (xs : List K) :
    vuEnvelope alpha (xs.map (fun x => x * g)) =
      (vuEnvelope alpha xs).map (fun x => x * |g|) := by
  have h : (xs.map (fun x => x * g)).map (fun x => |x|) =
      (xs.map (fun x => |x|)).map (fun x => x * |g|) := by
    simp only [List.map_map]
    apply List.map_congr_left
    intro x _
    simp only [Function.comp, abs_mul]
  rw [← vuEnvelope_map_abs alpha (xs.map (fun x => x * g)), h,
    vuEnvelope_scale alpha |g| (abs_nonneg g), vuEnvelope_map_abs]

theorem maxVu_abs_gain (expf : K → K) (data : MatrixXd K) (rate : Int)
    (h2 : ∀ c ∈ data, c ≠ []) (g : K) :
    maxVu expf data rate g = maxVu expf data rate |g| := by
  have hne : ∀ k : K, ∀ c ∈ scaleBy data k, c ≠ [] := by
    intro k c hc
    simp only [scaleBy, List.mem_map] at hc
    obtain ⟨d, hd, rfl⟩ := hc
    simpa using h2 d hd
  have hmap : (scaleBy data g).map (vuEnvelope (decay expf rate (3 / 10))) =
      (scaleBy data |g|).map (vuEnvelope (decay expf rate (3 / 10))) := by
    simp only [scaleBy, List.map_map]
    apply List.map_congr_left
    intro c _
    simp only [Function.comp, vuEnvelope_scale_abs _ g, vuEnvelope_scale_abs _ |g|, abs_abs]
  simp only [maxVu, calculateVuLevels_eq_ok expf rate _ (hne g),
    calculateVuLevels_eq_ok expf rate _ (hne |g|), hmap]

theorem peakAbs_ok (data : MatrixXd K) (h1 : data ≠ []) (h2 : ∀ c ∈ data, c ≠ []) :
    ∃ M : K, peakAbs data = .ok M := by
  apply maxCoeff_ok_of_ne_nil
  cases data with
  | nil => exact absurd rfl h1
  | cons c rest =>
    have hc : c ≠ [] := h2 c (List.mem_cons_self _ _)
    cases c with
    | nil => exact absurd rfl hc
    | cons x xs => simp

theorem peakAbs_scaleBy (data : MatrixXd K) (k M : K) (hk : 0 ≤ k)
    (hM : peakAbs data = .ok M) : peakAbs (scaleBy data k) = .ok (M * k) := by
  have h : (scaleBy data k).map (fun col => col.map (fun x => |x|)) =
      scaleBy (data.map (fun col => col.map (fun x => |x|))) k := by
    simp only [scaleBy, List.map_map]
    apply List.map_congr_left
    intro c _
    simp only [Function.comp, List.map_map]
    apply List.map_congr_left
    intro x _
    simp only [Function.comp, abs_mul, abs_of_nonneg hk]
  unfold peakAbs at hM ⊢
  rw [h]
  exact maxCoeff_scaleBy _ k M hk hM

/-- For a positive rate the compared quantity is `|g|` times the largest absolute sample. -/
theorem maxVu_eq_peak (expf : K → K) (hexp : ∀ t : K, t < 0 → 0 ≤ expf t ∧ expf t ≤ 1)
    (data : MatrixXd K) (rate : Int) (hrate : 0 < rate) (h1 : data ≠ [])
    (h2 : ∀ c ∈ data, c ≠ []) (M : K) (hM : peakAbs data = .ok M) (g : K) :
    maxVu expf data rate g = .ok (|g| * M) := by
  obtain ⟨F, hF, _, hf⟩ := maxVu_linear expf data rate h1 h2
  obtain ⟨hα0, hα1⟩ := decay_mem_unit expf hexp rate hrate (3 / 10) (by norm_num)
  have hFM : F = M := maxCoeff_envelopes_eq_peakAbs _ hα0 hα1 data F M hF hM
  rw [maxVu_abs_gain expf data rate h2 g, hf |g| (abs_nonneg g), hFM, mul_comm]

/-- The solved gain is within half the tolerance of `L / M` when that target is in the
bracket (positive rate, decay factor in `[0, 1]`). -/
theorem adjustGain_near_target [Archimedean K] (expf : K → K)
    (hexp : ∀ t : K, t < 0 → 0 ≤ expf t ∧ expf t ≤ 1) (data : MatrixXd K) (rate : Int)
    (hrate : 0 < rate) (h1 : data ≠ []) (h2 : ∀ c ∈ data, c ≠ []) (L tol M : K)
    (htol : 0 < tol) (hM : peakAbs data = .ok M) (hMpos : 0 < M) (hlo : 1 / 10 * M < L)
    (hhi : L ≤ 10 * M) :
    ∃ (n : Nat) (g : K), IsIterCount (99 / 10) tol n ∧
      (∀ fuel, n ≤ fuel → adjustGain expf fuel data rate L tol = .ok g) ∧
      |g - L / M| ≤ tol / 2 := by
  obtain ⟨F, n, b, hF, _, hf, hn, _, hrun, _, _, hwle, hlo1, hmid, _, hA, hB, _, _⟩ :=
    adjustGain_run expf data rate L tol h1 h2 htol
  obtain ⟨hα0, hα1⟩ := decay_mem_unit expf hexp rate hrate (3 / 10) (by norm_num)
  have hFM : F = M := maxCoeff_envelopes_eq_peakAbs _ hα0 hα1 data F M hF hM
  subst hFM
  have hlow := hA (by linarith)
  have hhigh := hB (by linarith)
  have e1 : b.low < L / F := by rw [lt_div_iff₀ hMpos]; linarith
  have e2 : L / F ≤ b.high := by rw [div_le_iff₀ hMpos]; linarith
  refine ⟨n, (b.low + b.high) / 2, hn, hrun, ?_⟩
  rw [abs_le]; constructor <;> linarith

theorem collect_of_forall_some {α : Type} :
    ∀ l : List (Option α), (∀ o ∈ l, ∃ a, o = some a) → ∃ as, collect l = some as
  | [], _ => ⟨[], rfl⟩
  | o :: rest, h => by
    obtain ⟨a, rfl⟩ := h o (List.mem_cons_self _ _)
    obtain ⟨as, has⟩ := collect_of_forall_some rest (fun p hp => h p (List.mem_cons_of_mem _ hp))
    exact ⟨a :: as, by simp [collect, has]⟩

/-- A matrix whose entries are all below 1 in absolute value is encoded without overflow. -/
theorem saveWavFile_of_abs_lt_one [FloorRing K] (m : MatrixXd K) (frames channels : Nat)
    (h : ∀ c ∈ m, ∀ y ∈ c, |y| < 1) :
    ∃ out : List Int, saveWavFile m frames channels = some out := by
  apply collect_of_forall_some
  intro o ho
  simp only [List.mem_flatMap, List.mem_map, List.mem_range] at ho
  obtain ⟨i, _, j, _, rfl⟩ := ho
  have hy : |(m.getD j []).getD i 0| < 1 := by
    rw [List.getD_eq_getElem?_getD, List.getD_eq_getElem?_getD]
    cases hc : m[j]? with
    | none => simp
    | some col =>
      cases hx : col[i]? with
      | none => simp [hx]
      | some y => simpa [hx] using h col (List.getElem?_mem hc) y (List.getElem?_mem hx)
  obtain ⟨t, ht, _⟩ := saveSample_of_abs_lt_one _ hy
  exact ⟨t, ht⟩

end PeakLemmas

/-! ## The claims -/

section Claims

variable {K : Type} [LinearOrderedField K]

/-- C1: for a non-empty sample sequence `x` of length `n`, a rate `r > 0` and a release time
`τ > 0`, `vuMeter` returns a sequence `v` of the same length with `v[0] = |x[0]|` and, for
`1 ≤ i < n`, `v[i] = max (α * v[i-1]) |x[i]|` where `α = exp (-1 / (τ * r))`. -/
theorem C1_vuMeter_recurrence (expf : K → K) (x : VectorXd K) (r : Int) (τ : K)
    (hx : x ≠ []) (_hr : 0 < r) (_hτ : 0 < τ) :
    ∃ v : VectorXd K, vuMeter expf x r τ = .ok v ∧ v.length = x.length ∧
      v[0]? = some |x.getD 0 0| ∧
      ∀ i, 1 ≤ i → i < x.length →
        v[i]? = some (max (expf (-1 / (τ * (r : K))) * v.getD (i - 1) 0) |x.getD i 0|) := by
  cases x with
  | nil => exact absurd rfl hx
  | cons x0 rest =>
    refine ⟨|x0| :: vuRelease (expf (-1 / (τ * (r : K)))) |x0| rest, rfl, ?_, ?_, ?_⟩
    · simp [vuRelease_length]
    · simp
    · intro i h1 hi
      obtain ⟨j, rfl⟩ := Nat.exists_eq_succ_of_ne_zero (by omega : i ≠ 0)
      have hj : j < rest.length := by simpa using hi
      have := vuRelease_getElem (expf (-1 / (τ * (r : K)))) rest |x0| j hj
      simpa using this

/-- C1 at `x = [1, 0, -3]`, rate 4, release time 1 on the rationals. -/
theorem C1_vuMeter_recurrence_witness :
    ([1, 0, -3] : VectorXd ℚ) ≠ [] ∧ (0 : Int) < 4 ∧ (0 : ℚ) < 1 ∧
    ∃ v : VectorXd ℚ, vuMeter expQ [1, 0, -3] 4 1 = .ok v ∧ v.length = [1, 0, -3].length ∧
      v[0]? = some |([1, 0, -3] : VectorXd ℚ).getD 0 0| ∧
      ∀ i, 1 ≤ i → i < ([1, 0, -3] : VectorXd ℚ).length →
        v[i]? = some (max (expQ (-1 / (1 * ((4 : Int) : ℚ))) * v.getD (i - 1) 0)
          |([1, 0, -3] : VectorXd ℚ).getD i 0|) :=
  ⟨by simp, by decide, by norm_num,
    C1_vuMeter_recurrence expQ [1, 0, -3] 4 1 (by simp) (by decide) (by norm_num)⟩

/-- C2: for a buffer with at least one frame and one channel whose samples are in the range of
the decoder (`|x| ≤ 32768/32767`), a positive rate, a reference level `L > 0` and a tolerance
`ε` no finer than the default `1e-4`, such that `f(0.1) < L ≤ f(10)`, `adjustGain` returns a
gain `g` with `|f(g) - L| ≤ ε` (`exp` mapping the negative numbers into `[0, 1]`). -/
theorem C2_level_within_tolerance [Archimedean K] (expf : K → K)
    (hexp : ∀ t : K, t < 0 → 0 ≤ expf t ∧ expf t ≤ 1) (data : MatrixXd K)
    (rows cols : Nat) (hshape : HasShape data rows cols) (hrows : 0 < rows) (hcols : 0 < cols)
    (hsamples : ∀ c ∈ data, ∀ x ∈ c, |x| ≤ 32768 / 32767)
    (rate : Int) (hrate : 0 < rate) (L ε y1 y10 : K) (_hL : 0 < L) (hε : 1 / 10000 ≤ ε)
    (hy1 : maxVu expf data rate (1 / 10) = .ok y1) (hlo : y1 < L)
    (hy10 : maxVu expf data rate 10 = .ok y10) (hhi : L ≤ y10) :
    ∃ (n : Nat) (g y : K),
      (∀ fuel, n ≤ fuel → adjustGain expf fuel data rate L ε = .ok g) ∧
      maxVu expf data rate g = .ok y ∧ |y - L| ≤ ε := by
  have hεpos : 0 < ε := lt_of_lt_of_le (by norm_num) hε
  obtain ⟨hne1, hne2⟩ := hshape.ne_nil hrows hcols
  obtain ⟨F, n, b, hF, hF0, hf, _, _, hrun, _, _, hwle, hlo1, hmid, _, hA, hB, _, _⟩ :=
    adjustGain_run expf data rate L ε hne1 hne2 hεpos
  obtain ⟨hα0, hα1⟩ := decay_mem_unit expf hexp rate hrate (3 / 10) (by norm_num)
  have hFB : F ≤ 32768 / 32767 := maxCoeff_envelopes_le _ hα0 hα1 _ data hsamples F hF
  have e1 : y1 = F * (1 / 10) := by
    have := hf (1 / 10) (by norm_num); rw [hy1] at this; exact Except.ok.inj this
  have e10 : y10 = F * 10 := by
    have := hf 10 (by norm_num); rw [hy10] at this; exact Except.ok.inj this
  have hlow := hA (by rw [← e1]; exact hlo)
  have hhigh := hB (by rw [← e10]; exact hhi)
  have hg0 : (0 : K) ≤ (b.low + b.high) / 2 := by linarith
  have hFw : F * (b.high - b.low) ≤ 32768 / 32767 * ε :=
    mul_le_mul hFB hwle (by linarith) (by norm_num)
  refine ⟨n, (b.low + b.high) / 2, F * ((b.low + b.high) / 2), hrun, hf _ hg0, ?_⟩
  have e : F * ((b.low + b.high) / 2) = F * b.low + F * (b.high - b.low) / 2 := by ring
  have e2 : F * ((b.low + b.high) / 2) = F * b.high - F * (b.high - b.low) / 2 := by ring
  rw [abs_le]
  constructor
  · rw [e]; linarith
  · rw [e2]; linarith

/-- C2 on the rationals: buffer `[[-1/2]]`, rate 44100, `L = 1/8`, `ε = 1/10000`. -/
theorem C2_level_within_tolerance_witness :
    HasShape ([[-1 / 2]] : MatrixXd ℚ) 1 1 ∧
    (∀ c ∈ ([[-1 / 2]] : MatrixXd ℚ), ∀ x ∈ c, |x| ≤ 32768 / 32767) ∧
    maxVu expQ [[-1 / 2]] 44100 (1 / 10) = .ok (1 / 20) ∧ (1 / 20 : ℚ) < 1 / 8 ∧
    maxVu expQ [[-1 / 2]] 44100 10 = .ok 5 ∧ (1 / 8 : ℚ) ≤ 5 ∧
    ∃ (n : Nat) (g y : ℚ),
      (∀ fuel, n ≤ fuel → adjustGain expQ fuel [[-1 / 2]] 44100 (1 / 8) (1 / 10000) = .ok g) ∧
      maxVu expQ [[-1 / 2]] 44100 g = .ok y ∧ |y - 1 / 8| ≤ 1 / 10000 := by
  have hf : ∀ g : ℚ, 0 < g → maxVu expQ [[-1 / 2]] 44100 g = .ok (1 / 2 * g) := by
    intro g hg
    rw [maxVu_single, abs_mul, abs_of_pos hg]
    norm_num [abs_of_pos]
  have h1 : maxVu expQ [[-1 / 2]] 44100 (1 / 10) = .ok (1 / 20) := by
    rw [hf _ (by norm_num)]; norm_num
  have h10 : maxVu expQ [[-1 / 2]] 44100 10 = .ok 5 := by
    rw [hf _ (by norm_num)]; norm_num
  have hs : ∀ c ∈ ([[-1 / 2]] : MatrixXd ℚ), ∀ x ∈ c, |x| ≤ 32768 / 32767 := by
    intro c hc x hx
    simp only [List.mem_singleton] at hc
    subst hc
    simp only [List.mem_singleton] at hx
    subst hx
    rw [abs_le]; constructor <;> norm_num
  exact ⟨by decide, hs, h1, by norm_num, h10, by norm_num,
    C2_level_within_tolerance expQ expQ_unit [[-1 / 2]] 1 1 (by decide) (by decide)
      (by decide) hs 44100 (by decide) (1 / 8) (1 / 10000) (1 / 20) 5 (by norm_num)
      (by norm_num) h1 (by norm_num) h10 (by norm_num)⟩

/-- C3: for a buffer with at least one frame and one channel whose largest absolute sample is
`M > 0` with `0.1 * M < L ≤ 10 * M` (positive rate, tolerance no finer than the default
`1e-4`, `exp` mapping the negative numbers into `[0, 1]`), `adjustGain` returns a gain `g`
with `|g - L / M| ≤ tol`, and the peak envelope `y` of the buffer times `g` satisfies
`|y - L| ≤ M * tol`, so `|y - L| ≤ tol` when `M ≤ 1` (as for peak amplitude 0.05). -/
theorem C3_gain_within_tol_of_target [Archimedean K] (expf : K → K)
    (hexp : ∀ t : K, t < 0 → 0 ≤ expf t ∧ expf t ≤ 1) (data : MatrixXd K) (rows cols : Nat)
    (hshape : HasShape data rows cols) (hrows : 0 < rows) (hcols : 0 < cols)
    (rate : Int) (hrate : 0 < rate) (L tol M : K) (hmin : 1 / 10000 ≤ tol)
    (hM : peakAbs data = .ok M) (hMpos : 0 < M) (hlo : 1 / 10 * M < L) (hhi : L ≤ 10 * M) :
    ∃ (n : Nat) (g y : K),
      (∀ fuel, n ≤ fuel → adjustGain expf fuel data rate L tol = .ok g) ∧
      |g - L / M| ≤ tol ∧
      maxVu expf data rate g = .ok y ∧ |y - L| ≤ M * tol ∧ (M ≤ 1 → |y - L| ≤ tol) := by
  have htol : 0 < tol := lt_of_lt_of_le (by norm_num) hmin
  obtain ⟨hne1, hne2⟩ := hshape.ne_nil hrows hcols
  obtain ⟨F, n, b, hF, _, hf, _, _, hrun, _, _, hwle, hlo1, hmid, _, hA, hB, _, _⟩ :=
    adjustGain_run expf data rate L tol hne1 hne2 htol
  obtain ⟨hα0, hα1⟩ := decay_mem_unit expf hexp rate hrate (3 / 10) (by norm_num)
  have hFM : F = M := maxCoeff_envelopes_eq_peakAbs _ hα0 hα1 data F M hF hM
  subst hFM
  have hlow := hA (by linarith)
  have hhigh := hB (by linarith)
  have hg0 : (0 : K) ≤ (b.low + b.high) / 2 := by linarith
  have h1 : b.low < L / F := by rw [lt_div_iff₀ hMpos]; linarith
  have h2 : L / F ≤ b.high := by rw [div_le_iff₀ hMpos]; linarith
  have hFw : F * (b.high - b.low) ≤ F * tol := mul_le_mul_of_nonneg_left hwle hMpos.le
  have hFt : 0 ≤ F * tol := mul_nonneg hMpos.le htol.le
  have e1 : F * ((b.low + b.high) / 2) = F * b.low + F * (b.high - b.low) / 2 := by ring
  have e2 : F * ((b.low + b.high) / 2) = F * b.high - F * (b.high - b.low) / 2 := by ring
  have hy : |F * ((b.low + b.high) / 2) - L| ≤ F * tol := by
    rw [abs_le]
    constructor
    · rw [e2]; linarith
    · rw [e1]; linarith
  refine ⟨n, (b.low + b.high) / 2, F * ((b.low + b.high) / 2), hrun, ?_, hf _ hg0, hy,
    fun hM1 => le_trans hy ?_⟩
  · rw [abs_le]; constructor <;> linarith
  · calc F * tol ≤ 1 * tol := mul_le_mul_of_nonneg_right hM1 htol.le
      _ = tol := one_mul _

/-- C3 in the end-to-end scenario over the reals: one channel with peak amplitude 0.05, rate
44100, `L = 10 ^ (-18 / 20)` and the default tolerance `1e-4`, with the real exponential. -/
theorem C3_gain_within_tol_of_target_witness :
    HasShape ([[0, 1 / 20, -1 / 20, 1 / 40]] : MatrixXd ℝ) 4 1 ∧
    peakAbs ([[0, 1 / 20, -1 / 20, 1 / 40]] : MatrixXd ℝ) = .ok (1 / 20) ∧
    ∃ (n : Nat) (g y : ℝ),
      (∀ fuel, n ≤ fuel → adjustGain Real.exp fuel [[0, 1 / 20, -1 / 20, 1 / 40]] 44100
        (REF_LEVEL (fun a b : ℝ => a ^ b)) (1 / 10000) = .ok g) ∧
      |g - REF_LEVEL (fun a b : ℝ => a ^ b) / (1 / 20)| ≤ 1 / 10000 ∧
      maxVu Real.exp [[0, 1 / 20, -1 / 20, 1 / 40]] 44100 g = .ok y ∧
      |y - REF_LEVEL (fun a b : ℝ => a ^ b)| ≤ 1 / 20 * (1 / 10000) ∧
      ((1 / 20 : ℝ) ≤ 1 → |y - REF_LEVEL (fun a b : ℝ => a ^ b)| ≤ 1 / 10000) := by
  have hshape : HasShape ([[0, 1 / 20, -1 / 20, 1 / 40]] : MatrixXd ℝ) 4 1 := by
    simp [HasShape]
  have hpeak : peakAbs ([[0, 1 / 20, -1 / 20, 1 / 40]] : MatrixXd ℝ) = .ok (1 / 20) := by
    have e1 : |(1 / 20 : ℝ)| = 1 / 20 := abs_of_pos (by norm_num)
    have e2 : |(-1 / 20 : ℝ)| = 1 / 20 := by rw [abs_of_neg (by norm_num)]; norm_num
    have e3 : |(1 / 40 : ℝ)| = 1 / 40 := abs_of_pos (by norm_num)
    have m1 : max (0 : ℝ) (1 / 20) = 1 / 20 := max_eq_right (by norm_num)
    have m2 : max (1 / 20 : ℝ) (1 / 40) = 1 / 20 := max_eq_left (by norm_num)
    simp only [peakAbs, maxCoeff, List.map_cons, List.map_nil, List.flatten_cons,
      List.flatten_nil, List.append_nil, List.foldl_cons, List.foldl_nil, abs_zero, e1, e2, e3,
      m1, m2, max_self]
  exact ⟨hshape, hpeak,
    C3_gain_within_tol_of_target Real.exp real_exp_unit [[0, 1 / 20, -1 / 20, 1 / 40]] 4 1
      hshape (by decide) (by decide) 44100 (by decide) (REF_LEVEL (fun a b : ℝ => a ^ b))
      (1 / 10000) (1 / 20) (by norm_num) hpeak (by norm_num)
      (by linarith [ref_level_real_bounds.1]) (by linarith [ref_level_real_bounds.2])⟩

/-- C4: for a fixed buffer with at least one frame and one channel and a positive rate, the
aggregator output `f(g)` is non-decreasing in the gain: `f(g1) ≤ f(g2)` for `0 < g1 ≤ g2`. -/
theorem C4_maxVu_monotone_in_gain (expf : K → K) (data : MatrixXd K) (rows cols : Nat)
    (hshape : HasShape data rows cols) (hrows : 0 < rows) (hcols : 0 < cols)
    (rate : Int) (_hrate : 0 < rate) (g1 g2 : K) (hg1 : 0 < g1) (h12 : g1 ≤ g2) :
    ∃ y1 y2 : K, maxVu expf data rate g1 = .ok y1 ∧ maxVu expf data rate g2 = .ok y2 ∧
      y1 ≤ y2 := by
  obtain ⟨hne1, hne2⟩ := hshape.ne_nil hrows hcols
  obtain ⟨F, _, hF0, hf⟩ := maxVu_linear expf data rate hne1 hne2
  exact ⟨F * g1, F * g2, hf g1 hg1.le, hf g2 (le_trans hg1.le h12),
    mul_le_mul_of_nonneg_left h12 hF0⟩

/-- C4 on a two-channel, three-frame rational buffer for the gains 0.5, 1, 2 and 5. -/
theorem C4_maxVu_monotone_in_gain_witness :
    HasShape ([[1 / 4, -1 / 2, 0], [0, 1 / 8, -1]] : MatrixXd ℚ) 3 2 ∧
    (∃ y1 y2 : ℚ, maxVu expQ [[1 / 4, -1 / 2, 0], [0, 1 / 8, -1]] 44100 (1 / 2) = .ok y1 ∧
      maxVu expQ [[1 / 4, -1 / 2, 0], [0, 1 / 8, -1]] 44100 1 = .ok y2 ∧ y1 ≤ y2) ∧
    (∃ y1 y2 : ℚ, maxVu expQ [[1 / 4, -1 / 2, 0], [0, 1 / 8, -1]] 44100 1 = .ok y1 ∧
      maxVu expQ [[1 / 4, -1 / 2, 0], [0, 1 / 8, -1]] 44100 2 = .ok y2 ∧ y1 ≤ y2) ∧
    (∃ y1 y2 : ℚ, maxVu expQ [[1 / 4, -1 / 2, 0], [0, 1 / 8, -1]] 44100 2 = .ok y1 ∧
      maxVu expQ [[1 / 4, -1 / 2, 0], [0, 1 / 8, -1]] 44100 5 = .ok y2 ∧ y1 ≤ y2) :=
  ⟨by decide,
    C4_maxVu_monotone_in_gain expQ _ 3 2 (by decide) (by decide) (by decide) 44100 (by decide)
      (1 / 2) 1 (by norm_num) (by norm_num),
    C4_maxVu_monotone_in_gain expQ _ 3 2 (by decide) (by decide) (by decide) 44100 (by decide)
      1 2 (by norm_num) (by norm_num),
    C4_maxVu_monotone_in_gain expQ _ 3 2 (by decide) (by decide) (by decide) 44100 (by decide)
      2 5 (by norm_num) (by norm_num)⟩

/-- C5: for a buffer with at least one frame and one channel and a positive rate, column `ch`
of `calculateVuLevels` is `vuMeter` of column `ch` of the buffer alone (a buffer that agrees on
column `ch` gives the same column `ch`), and `maxCoeff` of the result is the maximum over all
channels and frames of the per-channel levels: an upper bound that is attained. -/
theorem C5_columns_independent_max_global (expf : K → K) (data : MatrixXd K) (rows cols : Nat)
    (hshape : HasShape data rows cols) (hrows : 0 < rows) (hcols : 0 < cols)
    (rate : Int) (_hrate : 0 < rate) :
    ∃ vuLevels : MatrixXd K, calculateVuLevels expf data rate = .ok vuLevels ∧
      HasShape vuLevels rows cols ∧
      (∀ ch, ch < cols → ∃ col v, data[ch]? = some col ∧ vuLevels[ch]? = some v ∧
        vuMeter expf col rate (3 / 10) = .ok v) ∧
      (∀ (other : MatrixXd K) (ch : Nat), HasShape other rows cols → ch < cols →
        other[ch]? = data[ch]? →
        ∃ w, calculateVuLevels expf other rate = .ok w ∧ w[ch]? = vuLevels[ch]?) ∧
      ∃ m : K, maxCoeff vuLevels = .ok m ∧
        (∀ (ch i : Nat) (v : VectorXd K) (x : K),
          vuLevels[ch]? = some v → v[i]? = some x → x ≤ m) ∧
        (∃ (ch i : Nat) (v : VectorXd K), ch < cols ∧ i < rows ∧ vuLevels[ch]? = some v ∧ v[i]? = some m) := by
  obtain ⟨hne1, hne2⟩ := hshape.ne_nil hrows hcols
  have hE : HasShape (data.map (vuEnvelope (decay expf rate (3 / 10)))) rows cols := by
    refine ⟨by simp [hshape.1], fun c hc => ?_⟩
    obtain ⟨d, hd, rfl⟩ := List.mem_map.1 hc
    rw [vuEnvelope_length, hshape.2 d hd]
  obtain ⟨m, hm⟩ := maxCoeff_ok_of_ne_nil _
    (envelopes_flatten_ne_nil (decay expf rate (3 / 10)) data hne1 hne2)
  obtain ⟨hmem, hle⟩ := (maxCoeff_ok_iff _ _).1 hm
  refine ⟨_, calculateVuLevels_eq_ok expf rate data hne2, hE, fun ch hch => ?_,
    fun other ch hother _ hsame => ?_, m, hm, fun ch i v x hv hx => ?_, ?_⟩
  · have hlt : ch < data.length := by rw [hshape.1]; exact hch
    refine ⟨data[ch], vuEnvelope (decay expf rate (3 / 10)) data[ch],
      List.getElem?_eq_getElem hlt, ?_, ?_⟩
    · rw [List.getElem?_map, List.getElem?_eq_getElem hlt]; rfl
    · exact vuMeter_eq_ok expf _ rate (3 / 10) (hne2 _ (List.getElem_mem _))
  · refine ⟨_, calculateVuLevels_eq_ok expf rate other (hother.ne_nil hrows hcols).2, ?_⟩
    rw [List.getElem?_map, List.getElem?_map, hsame]
  · exact hle x (List.mem_flatten.2 ⟨v, List.getElem?_mem hv, List.getElem?_mem hx⟩)
  · obtain ⟨l, hl, hml⟩ := List.mem_flatten.1 hmem
    obtain ⟨ch, hch⟩ := List.mem_iff_getElem?.1 hl
    obtain ⟨i, hi⟩ := List.mem_iff_getElem?.1 hml
    obtain ⟨hch1, _⟩ := List.getElem?_eq_some_iff.1 hch
    obtain ⟨hi1, _⟩ := List.getElem?_eq_some_iff.1 hi
    exact ⟨ch, i, l, by rw [← hE.1]; exact hch1, by rw [← hE.2 l hl]; exact hi1, hch, hi⟩

/-- C5 on a two-channel, three-frame rational buffer. -/
theorem C5_columns_independent_max_global_witness :
    HasShape ([[1 / 4, -1 / 2, 0], [0, 1 / 8, -1]] : MatrixXd ℚ) 3 2 ∧
    ∃ vuLevels : MatrixXd ℚ,
      calculateVuLevels expQ [[1 / 4, -1 / 2, 0], [0, 1 / 8, -1]] 44100 = .ok vuLevels ∧
      HasShape vuLevels 3 2 ∧
      (∀ ch, ch < 2 → ∃ col v,
        ([[1 / 4, -1 / 2, 0], [0, 1 / 8, -1]] : MatrixXd ℚ)[ch]? = some col ∧
        vuLevels[ch]? = some v ∧ vuMeter expQ col 44100 (3 / 10) = .ok v) ∧
      (∀ (other : MatrixXd ℚ) (ch : Nat), HasShape other 3 2 → ch < 2 →
        other[ch]? = ([[1 / 4, -1 / 2, 0], [0, 1 / 8, -1]] : MatrixXd ℚ)[ch]? →
        ∃ w, calculateVuLevels expQ other 44100 = .ok w ∧ w[ch]? = vuLevels[ch]?) ∧
      ∃ m : ℚ, maxCoeff vuLevels = .ok m ∧
        (∀ (ch i : Nat) (v : VectorXd ℚ) (x : ℚ),
          vuLevels[ch]? = some v → v[i]? = some x → x ≤ m) ∧
        (∃ (ch i : Nat) (v : VectorXd ℚ), ch < 2 ∧ i < 3 ∧ vuLevels[ch]? = some v ∧ v[i]? = some m) :=
  ⟨by decide,
    C5_columns_independent_max_global expQ _ 3 2 (by decide) (by decide) (by decide) 44100
      (by decide)⟩

/-- C6 (as the code behaves): on a buffer without frames the loop of `adjustGain` does not
terminate after its iterations.  For the one-channel, zero-frame buffer `[[]]` the first
execution of the loop body calls `vuMeter` on an empty column, which accesses element 0 out of
range (the defect of C9), whatever the rate, the reference level and the fuel; no iteration
completes.  On every buffer with at least one frame and one channel the loop runs, with the
default tolerance `1e-4`, exactly 17 iterations, whatever the samples, the rate and the
reference level. -/
theorem C6_loop_faults_without_frames (expf : K → K) (data : MatrixXd K)
    (rows cols : Nat) (rate : Int) (L : K) :
    HasShape ([[]] : MatrixXd K) 0 1 ∧
    (∀ fuel, adjustGainLoop expf [[]] rate L (1 / 10000) (fuel + 1) ⟨1 / 10, 10⟩ 0 =
      .error .outOfRange) ∧
    (∀ fuel, adjustGain expf (fuel + 1) [[]] rate L (1 / 10000) = .error .outOfRange) ∧
    (HasShape data rows cols → 0 < rows → 0 < cols →
      ∃ (b : Bracket K) (g : K), ∀ fuel, 17 ≤ fuel →
        adjustGainLoop expf data rate L (1 / 10000) fuel ⟨1 / 10, 10⟩ 0 = .ok (b, 17) ∧
        adjustGain expf fuel data rate L (1 / 10000) = .ok g) := by
  have hfault : ∀ fuel, adjustGainLoop expf [[]] rate L (1 / 10000) (fuel + 1) ⟨1 / 10, 10⟩ 0 =
      .error .outOfRange := by
    intro fuel
    apply adjustGainLoop_fault
    · norm_num
    · simp [adjustGainStep, maxVu, scaleBy, calculateVuLevels, vuMeter]
  refine ⟨by simp [HasShape], hfault,
    fun fuel => adjustGain_of_loop_error expf _ _ rate L _ _ (hfault fuel),
    fun hshape hrows hcols => ?_⟩
  obtain ⟨hne1, hne2⟩ := hshape.ne_nil hrows hcols
  obtain ⟨F, _, hF0, hf⟩ := maxVu_linear expf data rate hne1 hne2
  have hw : (⟨1 / 10, 10⟩ : Bracket K).high - (⟨1 / 10, 10⟩ : Bracket K).low = 99 / 10 := by
    norm_num
  obtain ⟨b, hloop, _⟩ :=
    adjustGainLoop_run expf data rate L (1 / 10000) F hF0 hf 17 ⟨1 / 10, 10⟩ 0
      (by norm_num) (by norm_num) (by rw [hw]; exact isIterCount_default)
  have hloop17 : ∀ fuel, 17 ≤ fuel →
      adjustGainLoop expf data rate L (1 / 10000) fuel ⟨1 / 10, 10⟩ 0 = .ok (b, 17) := by
    intro fuel hfu
    simpa using hloop fuel hfu
  exact ⟨b, _, fun fuel hfu =>
    ⟨hloop17 fuel hfu, adjustGain_of_loop expf fuel data rate L _ b 17 (hloop17 fuel hfu)⟩⟩

/-- C7: for a buffer with at least one frame and one channel, a positive rate and `tol > 0`,
`adjustGain` returns an ordinary gain `g`; if `f(0.1) ≥ L` then `g` lies in `[0.1, 0.1 + tol]`,
and if `f(10) < L` then `g` lies in `[10 - tol, 10]`. -/
theorem C7_converges_to_nearer_boundary [Archimedean K] (expf : K → K) (data : MatrixXd K)
    (rows cols : Nat) (hshape : HasShape data rows cols) (hrows : 0 < rows) (hcols : 0 < cols)
    (rate : Int) (_hrate : 0 < rate) (L tol : K) (htol : 0 < tol) :
    ∃ (n : Nat) (g y1 y10 : K),
      (∀ fuel, n ≤ fuel → adjustGain expf fuel data rate L tol = .ok g) ∧
      maxVu expf data rate (1 / 10) = .ok y1 ∧ maxVu expf data rate 10 = .ok y10 ∧
      (L ≤ y1 → 1 / 10 ≤ g ∧ g ≤ 1 / 10 + tol) ∧
      (y10 < L → 10 - tol ≤ g ∧ g ≤ 10) := by
  obtain ⟨hne1, hne2⟩ := hshape.ne_nil hrows hcols
  obtain ⟨F, n, b, _, _, hf, _, _, hrun, _, _, hwle, hlo, hmid, hhi, _, _, hC, hD⟩ :=
    adjustGain_run expf data rate L tol hne1 hne2 htol
  refine ⟨n, (b.low + b.high) / 2, F * (1 / 10), F * 10, hrun, hf _ (by norm_num),
    hf _ (by norm_num), fun h => ?_, fun h => ?_⟩
  · have := hC h
    constructor <;> linarith
  · have := hD h
    constructor <;> linarith

/-- C7 on an all-zero rational buffer with a positive reference level. -/
theorem C7_converges_to_nearer_boundary_witness :
    HasShape ([[0, 0], [0, 0]] : MatrixXd ℚ) 2 2 ∧ (0 : Int) < 44100 ∧ (0 : ℚ) < 1 / 10000 ∧
    ∃ (n : Nat) (g y1 y10 : ℚ),
      (∀ fuel, n ≤ fuel →
        adjustGain expQ fuel [[0, 0], [0, 0]] 44100 (1 / 8) (1 / 10000) = .ok g) ∧
      maxVu expQ [[0, 0], [0, 0]] 44100 (1 / 10) = .ok y1 ∧
      maxVu expQ [[0, 0], [0, 0]] 44100 10 = .ok y10 ∧
      (1 / 8 ≤ y1 → 1 / 10 ≤ g ∧ g ≤ 1 / 10 + 1 / 10000) ∧
      (y10 < 1 / 8 → 10 - 1 / 10000 ≤ g ∧ g ≤ 10) :=
  ⟨by decide, by decide, by norm_num,
    C7_converges_to_nearer_boundary expQ [[0, 0], [0, 0]] 2 2 (by decide) (by decide)
      (by decide) 44100 (by decide) (1 / 8) (1 / 10000) (by norm_num)⟩

/-- C8 fails: for the all-zero buffer `[[0, 0]]`, the reference level `1/8` and the default
tolerance, `adjustGain` returns, as soon as it has fuel for its 17 iterations, the ordinary
value `10 - 9.9 / 2 ^ 18 = 26214301/2621440` (about 9.99996): no saturation is reported. -/
theorem C8_counterexample :
    maxVu expQ [[0, 0]] 44100 10 = .ok 0 ∧ (0 : ℚ) < 1 / 8 ∧
    ∀ fuel, 17 ≤ fuel →
      adjustGain expQ fuel [[0, 0]] 44100 (1 / 8) (1 / 10000) = .ok (26214301 / 2621440) := by
  have h0 : maxVu expQ [[0, 0]] 44100 10 = .ok 0 := by
    simp [maxVu, scaleBy, calculateVuLevels, vuMeter, vuRelease, maxCoeff]
  refine ⟨h0, by norm_num, fun fuel hfu => ?_⟩
  obtain ⟨n, y1, y10, hn, _, hy10, hsat, _⟩ :=
    adjustGain_saturation expQ [[0, 0]] 44100 (1 / 8) (1 / 10000) (by simp) (by simp)
      (by norm_num)
  have hn17 : n = 17 := hn.unique isIterCount_default
  subst hn17
  have hy : y10 = 0 := by rw [h0] at hy10; exact (Except.ok.inj hy10).symm
  rw [hsat (by rw [hy]; norm_num) fuel hfu]
  norm_num

/-- C8 (amended): `adjustGain` does not detect saturation.  For every buffer with at least one
frame and one channel and every `tol > 0`: if `f(10) < L` (as for every all-zero buffer with
`L > 0`) it returns an ordinary gain `g` with `10 - tol ≤ g ≤ 10`, and if `L < f(0.1)` it
returns an ordinary gain `g` with `0.1 ≤ g ≤ 0.1 + tol`: a value within `tol` of the boundary,
of the same kind as a solved gain, and no distinct result. -/
theorem C8_saturation_returns_ordinary_gain [Archimedean K] (expf : K → K) (data : MatrixXd K)
    (rows cols : Nat) (hshape : HasShape data rows cols) (hrows : 0 < rows) (hcols : 0 < cols)
    (rate : Int) (L tol : K) (htol : 0 < tol) :
    ∃ (n : Nat) (y1 y10 : K),
      maxVu expf data rate (1 / 10) = .ok y1 ∧ maxVu expf data rate 10 = .ok y10 ∧
      (y10 < L → ∃ g : K,
        (∀ fuel, n ≤ fuel → adjustGain expf fuel data rate L tol = .ok g) ∧
        10 - tol ≤ g ∧ g ≤ 10) ∧
      (L < y1 → ∃ g : K,
        (∀ fuel, n ≤ fuel → adjustGain expf fuel data rate L tol = .ok g) ∧
        1 / 10 ≤ g ∧ g ≤ 1 / 10 + tol) ∧
      ((∀ c ∈ data, ∀ x ∈ c, x = 0) → 0 < L → y10 < L) := by
  obtain ⟨hne1, hne2⟩ := hshape.ne_nil hrows hcols
  obtain ⟨F, n, b, _, _, hf, _, _, hrun, _, _, hwle, hlo, hmid, hhi, _, _, hC, hD⟩ :=
    adjustGain_run expf data rate L tol hne1 hne2 htol
  refine ⟨n, F * (1 / 10), F * 10, hf _ (by norm_num), hf _ (by norm_num), fun h => ?_,
    fun h => ?_, fun hz hL => ?_⟩
  · have := hD h
    exact ⟨(b.low + b.high) / 2, hrun, by linarith, by linarith⟩
  · have := hC h.le
    exact ⟨(b.low + b.high) / 2, hrun, by linarith, by linarith⟩
  · have h0 : maxVu expf data rate 10 = .ok (F * 0) := by
      rw [maxVu_zero_data expf data rate hz 10]; exact hf 0 le_rfl
    rw [hf 10 (by norm_num)] at h0
    have : F * 10 = 0 := by simpa using Except.ok.inj h0
    rw [this]; exact hL

/-- C8 (amended) on a silent two-channel rational buffer. -/
theorem C8_saturation_returns_ordinary_gain_witness :
    HasShape ([[0, 0, 0], [0, 0, 0]] : MatrixXd ℚ) 3 2 ∧ (0 : ℚ) < 1 / 10000 ∧
    ∃ (n : Nat) (y1 y10 : ℚ),
      maxVu expQ [[0, 0, 0], [0, 0, 0]] 44100 (1 / 10) = .ok y1 ∧
      maxVu expQ [[0, 0, 0], [0, 0, 0]] 44100 10 = .ok y10 ∧
      (y10 < 1 / 8 → ∃ g : ℚ,
        (∀ fuel, n ≤ fuel →
          adjustGain expQ fuel [[0, 0, 0], [0, 0, 0]] 44100 (1 / 8) (1 / 10000) = .ok g) ∧
        10 - 1 / 10000 ≤ g ∧ g ≤ 10) ∧
      (1 / 8 < y1 → ∃ g : ℚ,
        (∀ fuel, n ≤ fuel →
          adjustGain expQ fuel [[0, 0, 0], [0, 0, 0]] 44100 (1 / 8) (1 / 10000) = .ok g) ∧
        1 / 10 ≤ g ∧ g ≤ 1 / 10 + 1 / 10000) ∧
      ((∀ c ∈ ([[0, 0, 0], [0, 0, 0]] : MatrixXd ℚ), ∀ x ∈ c, x = 0) → (0 : ℚ) < 1 / 8 →
        y10 < 1 / 8) :=
  ⟨by decide, by norm_num,
    C8_saturation_returns_ordinary_gain expQ [[0, 0, 0], [0, 0, 0]] 3 2 (by decide) (by decide)
      (by decide) 44100 (1 / 8) (1 / 10000) (by norm_num)⟩

/-- C9 (as the code behaves): on the empty signal `vuMeter` does not return the empty
sequence; the unguarded statement `vuLevel[0] = std::abs(signal[0])` accesses element 0 of
vectors of size 0, whatever the rate and the release time. -/
theorem C9_vuMeter_empty_out_of_range (expf : K → K) (r : Int) (τ : K) :
    vuMeter expf ([] : VectorXd K) r τ = .error .outOfRange ∧
      vuMeter expf ([] : VectorXd K) r τ ≠ .ok [] := by
  constructor
  · rfl
  · intro h; cases h

/-- C10 fails: with rate `-1` and release time `1` (so `α = exp 1`) `vuMeter` returns an
envelope computed from these parameters, here a level that grows, instead of an error. -/
theorem C10_counterexample :
    vuMeter Real.exp ([1, 0] : VectorXd ℝ) (-1) 1 = .ok [1, Real.exp 1] := by
  have h : max (Real.exp 1) 0 = Real.exp 1 := max_eq_left (Real.exp_pos 1).le
  simp [vuMeter, vuRelease, h]

/-- C10 (amended): `vuMeter` validates nothing.  For a non-empty input and a rate `r ≤ 0` or a
release time `τ ≤ 0` with `τ * r ≠ 0` it returns, instead of an invalid-parameter error,
a sequence of the same length that starts with `|x[0]|`. -/
theorem C10_vuMeter_no_parameter_check (expf : K → K) (x : VectorXd K) (r : Int) (τ : K)
    (hx : x ≠ []) (_hbad : r ≤ 0 ∨ τ ≤ 0) (_hne : τ * (r : K) ≠ 0) :
    ∃ v : VectorXd K, vuMeter expf x r τ = .ok v ∧ v.length = x.length ∧
      v[0]? = some |x.getD 0 0| := by
  cases x with
  | nil => exact absurd rfl hx
  | cons x0 rest =>
    refine ⟨|x0| :: vuRelease (expf (-1 / (τ * (r : K)))) |x0| rest, rfl, ?_, ?_⟩
    · simp [vuRelease_length]
    · simp

/-- C10 (amended) on the rationals: rate `-1`, release time 1. -/
theorem C10_vuMeter_no_parameter_check_witness :
    ([1, -2] : VectorXd ℚ) ≠ [] ∧ ((-1 : Int) ≤ 0 ∨ (1 : ℚ) ≤ 0) ∧
    (1 : ℚ) * (((-1 : Int)) : ℚ) ≠ 0 ∧
    ∃ v : VectorXd ℚ, vuMeter expQ [1, -2] (-1) 1 = .ok v ∧
      v.length = ([1, -2] : VectorXd ℚ).length ∧
      v[0]? = some |([1, -2] : VectorXd ℚ).getD 0 0| :=
  ⟨by simp, Or.inl (by decide), by norm_num,
    C10_vuMeter_no_parameter_check expQ [1, -2] (-1) 1 (by simp) (Or.inl (by decide))
      (by norm_num)⟩

/-- C11: for an input of one sample `a` followed by zeros, `vuMeter` (with the real
exponential) yields `v[i] = α ^ i * |a|` at every index `i`, `α = exp (-1 / (τ * r))`; for
`x = [1, 0, 0, 0]`, rate 4 and release time 1 the four values are within `1e-3` of
`1.0, 0.7788, 0.6065, 0.4724`. -/
theorem C11_impulse_response :
    (∀ (a : ℝ) (n : Nat) (r : Int) (τ : ℝ),
      ∃ v : VectorXd ℝ, vuMeter Real.exp (a :: List.replicate n 0) r τ = .ok v ∧
        v.length = n + 1 ∧
        ∀ i, i ≤ n → v[i]? = some (Real.exp (-1 / (τ * (r : ℝ))) ^ i * |a|)) ∧
    ∃ v0 v1 v2 v3 : ℝ, vuMeter Real.exp [1, 0, 0, 0] 4 1 = .ok [v0, v1, v2, v3] ∧
      |v0 - 1| ≤ 1 / 1000 ∧ |v1 - 7788 / 10000| ≤ 1 / 1000 ∧
      |v2 - 6065 / 10000| ≤ 1 / 1000 ∧ |v3 - 4724 / 10000| ≤ 1 / 1000 := by
  have hgen : ∀ (a : ℝ) (n : Nat) (r : Int) (τ : ℝ),
      vuMeter Real.exp (a :: List.replicate n 0) r τ =
        .ok ((List.range (n + 1)).map (fun i => Real.exp (-1 / (τ * (r : ℝ))) ^ i * |a|)) := by
    intro a n r τ
    rw [vuMeter_eq_ok Real.exp _ r τ (by simp), decay,
      vuEnvelope_impulse _ (Real.exp_pos _).le a n]
  refine ⟨fun a n r τ => ⟨_, hgen a n r τ, by simp, fun i hi => ?_⟩, ?_⟩
  · rw [List.getElem?_map, List.getElem?_range (by omega)]
    rfl
  · obtain ⟨hlo, hhi⟩ := exp_neg_quarter_bounds
    have hα : Real.exp (-1 / ((1 : ℝ) * ((4 : Int) : ℝ))) = Real.exp (-1 / 4) := by norm_num
    refine ⟨1, Real.exp (-1 / 4), Real.exp (-1 / 4) ^ 2, Real.exp (-1 / 4) ^ 3, ?_, ?_, ?_, ?_, ?_⟩
    · have := hgen 1 3 4 1
      rw [hα] at this
      simpa [List.range_succ] using this
    · norm_num
    · rw [abs_le]; constructor <;> linarith
    · rw [abs_le]; constructor <;> nlinarith
    · rw [abs_le]; constructor <;> nlinarith [pow_le_pow_left₀ (by norm_num : (0:ℝ) ≤ 7787 / 10000) hlo 3,
        pow_le_pow_left₀ (Real.exp_pos (-1 / 4)).le hhi 3]

/-- C12: for a buffer with at least one frame and one channel and largest absolute sample
`M > 0`, a constant `k > 0` and a tolerance no finer than the default `1e-4` such that both
`L / M` and `L / (k * M)` lie in `(0.1, 10]` (positive rate, `exp` mapping the negative numbers
into `[0, 1]`), the gains `g1` solved for the buffer and `g2` solved for the buffer scaled by
`k` satisfy `|g2 - g1 / k| ≤ tol * (1 + 1 / k)`. -/
theorem C12_gain_scales_inversely [Archimedean K] (expf : K → K)
    (hexp : ∀ t : K, t < 0 → 0 ≤ expf t ∧ expf t ≤ 1) (data : MatrixXd K) (rows cols : Nat)
    (hshape : HasShape data rows cols) (hrows : 0 < rows) (hcols : 0 < cols)
    (rate : Int) (hrate : 0 < rate) (L tol M k : K) (hmin : 1 / 10000 ≤ tol)
    (hM : peakAbs data = .ok M) (hMpos : 0 < M) (hk : 0 < k)
    (h1 : 1 / 10 < L / M) (h2 : L / M ≤ 10) (h3 : 1 / 10 < L / (k * M))
    (h4 : L / (k * M) ≤ 10) :
    ∃ (n : Nat) (g1 g2 : K),
      (∀ fuel, n ≤ fuel → adjustGain expf fuel data rate L tol = .ok g1 ∧
        adjustGain expf fuel (scaleBy data k) rate L tol = .ok g2) ∧
      |g2 - g1 / k| ≤ tol * (1 + 1 / k) := by
  have htol : 0 < tol := lt_of_lt_of_le (by norm_num) hmin
  obtain ⟨hne1, hne2⟩ := hshape.ne_nil hrows hcols
  obtain ⟨hs1, hs2⟩ := (hasShape_scaleBy hshape k).ne_nil hrows hcols
  have hkM : 0 < k * M := mul_pos hk hMpos
  have hMk : peakAbs (scaleBy data k) = .ok (k * M) := by
    rw [mul_comm]; exact peakAbs_scaleBy data k M hk.le hM
  obtain ⟨n1, g1, hn1, hrun1, hg1⟩ := adjustGain_near_target expf hexp data rate hrate hne1 hne2
    L tol M htol hM hMpos (by rwa [lt_div_iff₀ hMpos] at h1) (by rwa [div_le_iff₀ hMpos] at h2)
  obtain ⟨n2, g2, hn2, hrun2, hg2⟩ := adjustGain_near_target expf hexp (scaleBy data k) rate
    hrate hs1 hs2 L tol (k * M) htol hMk hkM (by rwa [lt_div_iff₀ hkM] at h3)
    (by rwa [div_le_iff₀ hkM] at h4)
  have hn : n2 = n1 := hn2.unique hn1
  subst hn
  refine ⟨n2, g1, g2, fun fuel hfu => ⟨hrun1 fuel hfu, hrun2 fuel hfu⟩, ?_⟩
  have hsplit : g2 - g1 / k = (g2 - L / (k * M)) - (g1 - L / M) / k := by
    field_simp; ring
  have hdiv : |(g1 - L / M) / k| ≤ tol / 2 / k := by
    rw [abs_div, abs_of_pos hk]
    exact div_le_div_of_nonneg_right hg1 hk.le
  have hk1 : 0 ≤ tol / 2 / k := by positivity
  calc |g2 - g1 / k| = |(g2 - L / (k * M)) - (g1 - L / M) / k| := by rw [hsplit]
    _ ≤ |g2 - L / (k * M)| + |(g1 - L / M) / k| := abs_sub _ _
    _ ≤ tol / 2 + tol / 2 / k := add_le_add hg2 hdiv
    _ ≤ tol * (1 + 1 / k) := by
      have : tol * (1 + 1 / k) = 2 * (tol / 2 + tol / 2 / k) := by field_simp; ring
      rw [this]; linarith

/-- C12 over the reals with the real exponential: buffer `[[1/4, -1/8]]`, `k = 2`, `L = 1/2`. -/
theorem C12_gain_scales_inversely_witness :
    HasShape ([[1 / 4, -1 / 8]] : MatrixXd ℝ) 2 1 ∧
    peakAbs ([[1 / 4, -1 / 8]] : MatrixXd ℝ) = .ok (1 / 4) ∧
    ∃ (n : Nat) (g1 g2 : ℝ),
      (∀ fuel, n ≤ fuel →
        adjustGain Real.exp fuel [[1 / 4, -1 / 8]] 44100 (1 / 2) (1 / 10000) = .ok g1 ∧
        adjustGain Real.exp fuel (scaleBy [[1 / 4, -1 / 8]] 2) 44100 (1 / 2) (1 / 10000) =
          .ok g2) ∧
      |g2 - g1 / 2| ≤ 1 / 10000 * (1 + 1 / 2) := by
  have hshape : HasShape ([[1 / 4, -1 / 8]] : MatrixXd ℝ) 2 1 := by simp [HasShape]
  have hpeak : peakAbs ([[1 / 4, -1 / 8]] : MatrixXd ℝ) = .ok (1 / 4) := by
    have e1 : |(1 / 4 : ℝ)| = 1 / 4 := abs_of_pos (by norm_num)
    have e2 : |(-1 / 8 : ℝ)| = 1 / 8 := by rw [abs_of_neg (by norm_num)]; norm_num
    have m1 : max (1 / 4 : ℝ) (1 / 8) = 1 / 4 := max_eq_left (by norm_num)
    simp only [peakAbs, maxCoeff, List.map_cons, List.map_nil, List.flatten_cons,
      List.flatten_nil, List.append_nil, List.foldl_cons, List.foldl_nil, e1, e2, m1]
  exact ⟨hshape, hpeak,
    C12_gain_scales_inversely Real.exp real_exp_unit [[1 / 4, -1 / 8]] 2 1 hshape (by decide)
      (by decide) 44100 (by decide) (1 / 2) (1 / 10000) (1 / 4) 2 (by norm_num) hpeak
      (by norm_num) (by norm_num) (by norm_num) (by norm_num) (by norm_num) (by norm_num)⟩

/-- C13: for a non-empty input, a rate `r > 0` and a release time `τ > 0`, every value of the
envelope returned by `vuMeter` is non-negative and at least the absolute value of the sample
at the same index: `0 ≤ |x[i]| ≤ v[i]` for every `i`. -/
theorem C13_envelope_dominates_samples (expf : K → K) (x : VectorXd K) (r : Int) (τ : K)
    (hx : x ≠ []) (_hr : 0 < r) (_hτ : 0 < τ) :
    ∃ v : VectorXd K, vuMeter expf x r τ = .ok v ∧ v.length = x.length ∧
      ∀ i, i < x.length →
        ∃ xi vi : K, x[i]? = some xi ∧ v[i]? = some vi ∧ 0 ≤ |xi| ∧ |xi| ≤ vi ∧ 0 ≤ vi := by
  refine ⟨_, vuMeter_eq_ok expf x r τ hx, vuEnvelope_length _ x, fun i hi => ?_⟩
  obtain ⟨xi, vi, hxi, hvi, hle⟩ := vuEnvelope_getElem_ge (decay expf r τ) x i hi
  exact ⟨xi, vi, hxi, hvi, abs_nonneg xi, hle, le_trans (abs_nonneg xi) hle⟩

/-- C13 at `x = [1/2, -3, 0]`, rate 44100, release time `0.3` on the rationals. -/
theorem C13_envelope_dominates_samples_witness :
    ([1 / 2, -3, 0] : VectorXd ℚ) ≠ [] ∧ (0 : Int) < 44100 ∧ (0 : ℚ) < 3 / 10 ∧
    ∃ v : VectorXd ℚ, vuMeter expQ [1 / 2, -3, 0] 44100 (3 / 10) = .ok v ∧
      v.length = ([1 / 2, -3, 0] : VectorXd ℚ).length ∧
      ∀ i, i < ([1 / 2, -3, 0] : VectorXd ℚ).length →
        ∃ xi vi : ℚ, ([1 / 2, -3, 0] : VectorXd ℚ)[i]? = some xi ∧ v[i]? = some vi ∧
          0 ≤ |xi| ∧ |xi| ≤ vi ∧ 0 ≤ vi :=
  ⟨by simp, by decide, by norm_num,
    C13_envelope_dominates_samples expQ [1 / 2, -3, 0] 44100 (3 / 10) (by simp) (by decide)
      (by norm_num)⟩

/-- C14 fails for the most negative sample: `-32768` is a 16-bit sample and the value stored
for it, `-32768 / 32767`, is below `-1`. -/
theorem C14_counterexample :
    SHORT_MIN ≤ -32768 ∧ (-32768 : Int) ≤ SHORT_MAX ∧
    (readSample (-32768) : ℚ) = -32768 / 32767 ∧ (readSample (-32768) : ℚ) < -1 := by
  refine ⟨by decide, by decide, ?_, ?_⟩ <;> norm_num [readSample, SHORT_MAX]

/-- C14 (amended): for every 16-bit sample `s` the value `s / 32767` that `readWavFile` stores
lies in `[-32768/32767, 1]`; it lies in `[-1, 1]` exactly when `s ≠ -32768`.  The same bounds
hold for every entry of the matrix built from a vector of 16-bit samples. -/
theorem C14_normalised_range (s : Int) (h1 : -32768 ≤ s) (h2 : s ≤ 32767) :
    (-32768 / 32767 : K) ≤ readSample s ∧ (readSample s : K) ≤ 1 ∧
    ((-1 : K) ≤ readSample s ↔ s ≠ -32768) ∧
    ∀ (buffer : List Int) (frames channels : Nat),
      (∀ t ∈ buffer, -32768 ≤ t ∧ t ≤ 32767) →
      ∀ c ∈ (readWavFile buffer frames channels : MatrixXd K), ∀ x ∈ c,
        -32768 / 32767 ≤ x ∧ x ≤ 1 := by
  obtain ⟨hlo, hhi⟩ := readSample_bounds (K := K) s h1 h2
  refine ⟨hlo, hhi, ?_, fun buffer frames channels hb c hc x hx => ?_⟩
  · have key : (-1 : K) ≤ readSample s ↔ -32767 ≤ s := by
      simp only [readSample, SHORT_MAX]
      push_cast
      rw [le_div_iff₀ (by norm_num)]
      constructor
      · intro h
        have : ((-32767 : Int) : K) ≤ (s : K) := by push_cast; linarith
        exact Int.cast_le.1 this
      · intro h
        have : ((-32767 : Int) : K) ≤ (s : K) := Int.cast_le.2 h
        push_cast at this; linarith
    rw [key]; omega
  · simp only [readWavFile, List.mem_map, List.mem_range] at hc
    obtain ⟨j, _, rfl⟩ := hc
    simp only [List.mem_map, List.mem_range] at hx
    obtain ⟨i, _, rfl⟩ := hx
    obtain ⟨g1, g2⟩ := getD_short_range buffer hb (i * channels + j)
    exact readSample_bounds _ g1 g2

/-- C14 (amended) at the sample `-32768` on the rationals. -/
theorem C14_normalised_range_witness :
    (-32768 : Int) ≤ -32768 ∧ (-32768 : Int) ≤ 32767 ∧
    (-32768 / 32767 : ℚ) ≤ readSample (-32768) ∧ (readSample (-32768) : ℚ) ≤ 1 ∧
    ((-1 : ℚ) ≤ readSample (-32768) ↔ (-32768 : Int) ≠ -32768) ∧
    ∀ (buffer : List Int) (frames channels : Nat),
      (∀ t ∈ buffer, -32768 ≤ t ∧ t ≤ 32767) →
      ∀ c ∈ (readWavFile buffer frames channels : MatrixXd ℚ), ∀ x ∈ c,
        -32768 / 32767 ≤ x ∧ x ≤ 1 :=
  ⟨by decide, by decide, C14_normalised_range (-32768) (by decide) (by decide)⟩

/-- C16 fails: the original extension is replaced by `.wav`.  For the input path `track.WAV`
the output path is `track_VUoutput.wav`, not `track_VUoutput.WAV`, and for `song.flac` it is
`song_VUoutput.wav`, not `song_VUoutput.flac`. -/
theorem C16_counterexample :
    outputFilePath "track.WAV".toList = "track_VUoutput.wav".toList ∧
    outputFilePath "track.WAV".toList ≠ "track_VUoutput.WAV".toList ∧
    outputFilePath "song.flac".toList = "song_VUoutput.wav".toList ∧
    outputFilePath "song.flac".toList ≠ "song_VUoutput.flac".toList := by
  refine ⟨?_, ?_, ?_, ?_⟩ <;> decide

/-- C16 (amended): for an input path with an extension, `stem`, a dot and an `ext` without
dot, the output path of `main` is `stem` followed by the fixed text `_VUoutput.wav`; it is
`stem + "_VUoutput" + original extension` exactly when the original extension is `.wav`. -/
theorem C16_output_path (stem ext : List Char) (h : '.' ∉ ext) :
    outputFilePath (stem ++ '.' :: ext) = stem ++ "_VUoutput.wav".toList ∧
    (outputFilePath (stem ++ '.' :: ext) = stem ++ "_VUoutput".toList ++ '.' :: ext ↔
      ext = "wav".toList) := by
  have hout := outputFilePath_stem stem ext h
  refine ⟨hout, ?_⟩
  rw [hout]
  have hsplit : "_VUoutput.wav".toList = "_VUoutput".toList ++ '.' :: "wav".toList := by decide
  rw [hsplit, List.append_assoc]
  constructor
  · intro e
    have e1 := List.append_cancel_left e
    have e2 := List.append_cancel_left e1
    exact ((List.cons.inj e2).2).symm
  · intro e; rw [e]

/-- C16 (amended) at the path `take1.mix.wav`. -/
theorem C16_output_path_witness :
    '.' ∉ "wav".toList ∧
    outputFilePath ("take1.mix".toList ++ '.' :: "wav".toList) =
      "take1.mix".toList ++ "_VUoutput.wav".toList ∧
    (outputFilePath ("take1.mix".toList ++ '.' :: "wav".toList) =
      "take1.mix".toList ++ "_VUoutput".toList ++ '.' :: "wav".toList ↔
      "wav".toList = "wav".toList) :=
  ⟨by decide, C16_output_path "take1.mix".toList "wav".toList (by decide)⟩

/-- C18: the release never changes the peak.  With `exp` mapping the negative numbers into
`[0, 1]`: for a non-empty sequence, `r > 0` and `τ > 0` the maximum of `vuMeter x` is the
maximum of the `|x[i]|`; and for a buffer with at least one frame and one channel the
quantity compared with the reference level is `|g|` times the largest absolute sample `M`
for every gain `g`, the same for every positive rate. -/
theorem C18_release_keeps_peak (expf : K → K)
    (hexp : ∀ t : K, t < 0 → 0 ≤ expf t ∧ expf t ≤ 1) :
    (∀ (x : VectorXd K) (r : Int) (τ : K), x ≠ [] → 0 < r → 0 < τ →
      ∃ (v : VectorXd K) (m : K), vuMeter expf x r τ = .ok v ∧ maxCoeff [v] = .ok m ∧
        peakAbs [x] = .ok m) ∧
    (∀ (data : MatrixXd K) (rows cols : Nat), HasShape data rows cols → 0 < rows → 0 < cols →
      ∃ M : K, peakAbs data = .ok M ∧
        ∀ (rate : Int), 0 < rate → ∀ g : K, maxVu expf data rate g = .ok (|g| * M)) := by
  refine ⟨fun x r τ hx hr hτ => ?_, fun data rows cols hshape hrows hcols => ?_⟩
  · obtain ⟨M, hM⟩ := peakAbs_ok [x] (by simp) (by simpa using hx)
    obtain ⟨F, hF⟩ := maxCoeff_ok_of_ne_nil ([x].map (vuEnvelope (decay expf r τ)))
      (envelopes_flatten_ne_nil _ [x] (by simp) (by simpa using hx))
    obtain ⟨hα0, hα1⟩ := decay_mem_unit expf hexp r hr τ hτ
    have hFM : F = M := maxCoeff_envelopes_eq_peakAbs _ hα0 hα1 [x] F M hF hM
    exact ⟨_, M, vuMeter_eq_ok expf x r τ hx, by rw [← hFM]; exact hF, hM⟩
  · obtain ⟨hne1, hne2⟩ := hshape.ne_nil hrows hcols
    obtain ⟨M, hM⟩ := peakAbs_ok data hne1 hne2
    exact ⟨M, hM, fun rate hrate g => maxVu_eq_peak expf hexp data rate hrate hne1 hne2 M hM g⟩

/-- C18 with the real exponential. -/
theorem C18_release_keeps_peak_witness :
    (∀ t : ℝ, t < 0 → 0 ≤ Real.exp t ∧ Real.exp t ≤ 1) ∧
    (∀ (x : VectorXd ℝ) (r : Int) (τ : ℝ), x ≠ [] → 0 < r → 0 < τ →
      ∃ (v : VectorXd ℝ) (m : ℝ), vuMeter Real.exp x r τ = .ok v ∧ maxCoeff [v] = .ok m ∧
        peakAbs [x] = .ok m) ∧
    (∀ (data : MatrixXd ℝ) (rows cols : Nat), HasShape data rows cols → 0 < rows → 0 < cols →
      ∃ M : ℝ, peakAbs data = .ok M ∧
        ∀ (rate : Int), 0 < rate → ∀ g : ℝ, maxVu Real.exp data rate g = .ok (|g| * M)) :=
  ⟨real_exp_unit, C18_release_keeps_peak Real.exp real_exp_unit⟩

/-- C19: with the default reference level (at most `1/2`, as `10 ^ (-18/20)` is) and the
default tolerance `1e-4`, for a buffer with at least one frame and one channel whose samples
satisfy `|x| ≤ 32768/32767` and a positive rate (`exp` mapping the negative numbers into
`[0, 1]`), `main` solves a gain `g` in 17 iterations and every sample `y` of `data * g` has
`|y| < 1`; so `|y * 32767| < 32767`, the conversion to `short` in `saveWavFile` is defined
with a result in `[-32767, 32767]`, and `saveWavFile` produces its sample vector. -/
theorem C19_adjusted_samples_fit_short [Archimedean K] [FloorRing K] (expf : K → K)
    (powf : K → K → K) (hexp : ∀ t : K, t < 0 → 0 ≤ expf t ∧ expf t ≤ 1)
    (hpow : REF_LEVEL powf ≤ 1 / 2) (data : MatrixXd K) (rows cols : Nat)
    (hshape : HasShape data rows cols) (hrows : 0 < rows) (hcols : 0 < cols)
    (hsamples : ∀ c ∈ data, ∀ x ∈ c, |x| ≤ 32768 / 32767) (rate : Int) (hrate : 0 < rate) :
    ∃ g : K,
      (∀ fuel, 17 ≤ fuel → mainAdjust expf powf fuel data rate = .ok (g, scaleBy data g)) ∧
      (∀ c ∈ scaleBy data g, ∀ y ∈ c, |y| < 1 ∧ |y * 32767| < 32767 ∧
        ∃ t : Int, saveSample y = some t ∧ -32767 ≤ t ∧ t ≤ 32767) ∧
      ∃ out : List Int, saveWavFile (scaleBy data g) rows cols = some out := by
  obtain ⟨hne1, hne2⟩ := hshape.ne_nil hrows hcols
  obtain ⟨F, n, b, hF, hF0, _, hn, _, hrun, _, _, hwle, hlo, hmid, _, hA, _, hC, _⟩ :=
    adjustGain_run expf data rate (REF_LEVEL powf) (1 / 10000) hne1 hne2 (by norm_num)
  have hn17 : n = 17 := hn.unique isIterCount_default
  subst hn17
  obtain ⟨hα0, hα1⟩ := decay_mem_unit expf hexp rate hrate (3 / 10) (by norm_num)
  obtain ⟨hFmem, hFle⟩ := (maxCoeff_ok_iff _ _).1 hF
  have hFB : F ≤ 32768 / 32767 := by
    obtain ⟨l, hl, hFl⟩ := List.mem_flatten.1 hFmem
    obtain ⟨c, hc, rfl⟩ := List.mem_map.1 hl
    exact vuEnvelope_le _ hα0 hα1 _ c (hsamples c hc) F hFl
  have hxF : ∀ c ∈ data, ∀ x ∈ c, |x| ≤ F := by
    intro c hc x hx
    obtain ⟨v, hv, hxv⟩ := vuEnvelope_cover (decay expf rate (3 / 10)) c x hx
    exact le_trans hxv (hFle v (List.mem_flatten.2 ⟨_, List.mem_map.2 ⟨c, hc, rfl⟩, hv⟩))
  have hgpos : (0 : K) < (b.low + b.high) / 2 := by linarith
  have hFw : F * (b.high - b.low) ≤ 32768 / 32767 * (1 / 10000) :=
    mul_le_mul hFB hwle (by linarith) (by norm_num)
  have hFg : F * ((b.low + b.high) / 2) < 1 := by
    by_cases hcase : F * (1 / 10) < REF_LEVEL powf
    · have h1 := hA hcase
      have e : F * ((b.low + b.high) / 2) = F * b.low + F * (b.high - b.low) / 2 := by ring
      have h3 : (1 / 2 + 32768 / 32767 * (1 / 10000) / 2 : K) < 1 := by norm_num
      rw [e]
      linarith
    · have h1 := hC (not_lt.1 hcase)
      have e : F * ((b.low + b.high) / 2) = F * b.low + F * (b.high - b.low) / 2 := by ring
      have hb : F * b.low = F * (1 / 10) := by rw [h1]
      have h3 : (32768 / 32767 * (1 / 10) + 32768 / 32767 * (1 / 10000) / 2 : K) < 1 := by
        norm_num
      rw [e, hb]
      linarith
  have hy : ∀ c ∈ scaleBy data ((b.low + b.high) / 2), ∀ y ∈ c, |y| < 1 := by
    intro c hc y hy
    simp only [scaleBy, List.mem_map] at hc
    obtain ⟨d, hd, rfl⟩ := hc
    obtain ⟨x, hx, rfl⟩ := List.mem_map.1 hy
    rw [abs_mul, abs_of_pos hgpos]
    exact lt_of_le_of_lt (mul_le_mul_of_nonneg_right (hxF d hd x hx) hgpos.le) hFg
  refine ⟨(b.low + b.high) / 2, fun fuel hfu => ?_, fun c hc y hyc => ?_,
    saveWavFile_of_abs_lt_one _ rows cols hy⟩
  · simp only [mainAdjust, hrun fuel hfu]
  · have h1 := hy c hc y hyc
    refine ⟨h1, ?_, saveSample_of_abs_lt_one y h1⟩
    rw [abs_mul, abs_of_pos (by norm_num : (0 : K) < 32767)]
    linarith

/-- C19 over the reals with the real exponential and power, on a buffer that contains the
extreme decoded value `-32768/32767`. -/
theorem C19_adjusted_samples_fit_short_witness :
    HasShape ([[1 / 4, -32768 / 32767], [0, 1]] : MatrixXd ℝ) 2 2 ∧
    REF_LEVEL (fun a b : ℝ => a ^ b) ≤ 1 / 2 ∧
    ∃ g : ℝ,
      (∀ fuel, 17 ≤ fuel →
        mainAdjust Real.exp (fun a b : ℝ => a ^ b) fuel [[1 / 4, -32768 / 32767], [0, 1]] 44100 =
          .ok (g, scaleBy [[1 / 4, -32768 / 32767], [0, 1]] g)) ∧
      (∀ c ∈ scaleBy ([[1 / 4, -32768 / 32767], [0, 1]] : MatrixXd ℝ) g, ∀ y ∈ c,
        |y| < 1 ∧ |y * 32767| < 32767 ∧
        ∃ t : Int, saveSample y = some t ∧ -32767 ≤ t ∧ t ≤ 32767) ∧
      ∃ out : List Int,
        saveWavFile (scaleBy ([[1 / 4, -32768 / 32767], [0, 1]] : MatrixXd ℝ) g) 2 2 =
          some out := by
  have hshape : HasShape ([[1 / 4, -32768 / 32767], [0, 1]] : MatrixXd ℝ) 2 2 := by
    simp [HasShape]
  have hsamples : ∀ c ∈ ([[1 / 4, -32768 / 32767], [0, 1]] : MatrixXd ℝ), ∀ x ∈ c,
      |x| ≤ 32768 / 32767 := by
    intro c hc x hx
    simp only [List.mem_cons, List.mem_singleton, List.not_mem_nil, or_false] at hc
    rcases hc with rfl | rfl
    · simp only [List.mem_cons, List.mem_singleton, List.not_mem_nil, or_false] at hx
      rcases hx with rfl | rfl <;> rw [abs_le] <;> constructor <;> norm_num
    · simp only [List.mem_cons, List.mem_singleton, List.not_mem_nil, or_false] at hx
      rcases hx with rfl | rfl <;> rw [abs_le] <;> constructor <;> norm_num
  exact ⟨hshape, ref_level_real_bounds.2,
    C19_adjusted_samples_fit_short Real.exp (fun a b : ℝ => a ^ b) real_exp_unit
      ref_level_real_bounds.2 [[1 / 4, -32768 / 32767], [0, 1]] 2 2 hshape (by decide)
      (by decide) hsamples 44100 (by decide)⟩

/-- C20: in exact arithmetic quantisation undoes normalisation.  For every 16-bit sample `s`,
truncating `(s / 32767) * 32767` toward zero as `saveWavFile` does gives `s` back, and encoding
the matrix decoded from a sample vector gives that vector back. -/
theorem C20_decode_encode_identity [FloorRing K] (s : Int) (h1 : -32768 ≤ s) (h2 : s ≤ 32767) :
    saveSample (readSample s : K) = some s ∧
    ∀ (buffer : List Int) (frames channels : Nat), buffer.length = frames * channels →
      (∀ t ∈ buffer, -32768 ≤ t ∧ t ≤ 32767) →
      saveWavFile (readWavFile buffer frames channels : MatrixXd K) frames channels =
        some buffer := by
  refine ⟨?_, fun buffer frames channels hlen hb =>
    saveWavFile_readWavFile buffer frames channels hlen hb⟩
  rw [saveSample, readSample_mul_max]
  exact toShort_intCast s h1 h2

/-- C20 at the sample `-32768` on the rationals. -/
theorem C20_decode_encode_identity_witness :
    (-32768 : Int) ≤ -32768 ∧ (-32768 : Int) ≤ 32767 ∧
    saveSample (readSample (-32768) : ℚ) = some (-32768) ∧
    ∀ (buffer : List Int) (frames channels : Nat), buffer.length = frames * channels →
      (∀ t ∈ buffer, -32768 ≤ t ∧ t ≤ 32767) →
      saveWavFile (readWavFile buffer frames channels : MatrixXd ℚ) frames channels =
        some buffer :=
  ⟨by decide, by decide, C20_decode_encode_identity (-32768) (by decide) (by decide)⟩

end Claims

end VUGain
